import Mathlib

/-!
Verification of the MSF (multi-stream file) reader: a shallow embedding of
`src/msf/mod.rs`, `src/msf/big.rs` and `src/msf/small.rs` together with
spec-modelled definitions for the auxiliary modules (`PageList`, `ParseBuffer`,
the `Source` transport and the error type) that the readers use.

Bytes are modelled as `List Nat` (each entry a byte value), machine integers as
`Nat` with explicit bounds where overflow matters, fallible code as `Except`,
and the `&mut self` state machine of the readers as explicit state passing: a
stateful operation returns `Except Error α × MsfState`, the second component
being the reader state after the call (unchanged when the Rust code returns
before mutating `self`).
-/

namespace Msf

/-- Modelled from the spec: the transport error kinds of `std::io::Error` as seen
through `Source::view` (section 6/7 of the spec); only the unexpected-end-of-file
kind is ever distinguished by the reader. -/
inductive IoErrorKind where
  | unexpectedEof
  | other (code : Nat)
deriving DecidableEq

/-- Modelled from the spec: the error taxonomy of section 7 (`crate::common::Error`
is not under `src/`).  `unexpectedEof` is the ParseBuffer underflow error
(`ParseError` in the spec); `ioError` wraps a transport error.  `assertViewLen`
models the process abort of the `assert_eq!` in `msf::view`, and
`unreachableState` the `unreachable!()` in `look_up_stream`; both are
programmer-defect aborts in the code, modelled as distinguished error values that
the theorems prove unreachable. -/
inductive Error where
  | unexpectedEof
  | unrecognizedFileFormat
  | invalidPageSize (n : Nat)
  | pageReferenceOutOfRange (n : Nat)
  | streamNotFound (n : Nat)
  | ioError (kind : IoErrorKind)
  | assertViewLen
  | unreachableState
deriving DecidableEq

deriving instance DecidableEq for Except

/-- A byte buffer: each entry is one byte. -/
abbrev Bytes := List Nat

/-- Modelled from the spec: `ParseBuffer` parsing of a `k`-byte little-endian
unsigned integer (`parse_u32` is `parse_le 4`, `parse_u16` is `parse_le 2`);
underflow is the ParseError `unexpectedEof`. -/
def parse_le : Nat → Bytes → Except Error (Nat × Bytes)
  | 0, buf => .ok (0, buf)
  | _ + 1, [] => .error .unexpectedEof
  | k + 1, b :: rest =>
    match parse_le k rest with
    | .error e => .error e
    | .ok (v, buf) => .ok (b + 256 * v, buf)

/-- Modelled from the spec: `ParseBuffer::take(n)`, dropping `n` bytes (the taken
slice itself is discarded by all callers in the readers). -/
def take_bytes (n : Nat) (buf : Bytes) : Except Error Bytes :=
  if n ≤ buf.length then .ok (buf.drop n) else .error .unexpectedEof

/-- The little-endian value of the first `k` bytes of a buffer (missing bytes
read as 0); used to state what `parse_le` returns on a sufficiently long buffer. -/
def leVal : Nat → Bytes → Nat
  | 0, _ => 0
  | _ + 1, [] => 0
  | k + 1, b :: rest => b + 256 * leVal k rest

/-- The `k`-byte little-endian encoding of `v` (an encoder used only in theorem
statements, to describe well-formed images; the readers only decode). -/
def leBytes : Nat → Nat → Bytes
  | 0, _ => []
  | k + 1, v => v % 256 :: leBytes k (v / 256)

/-- Modelled from the spec: `PageList` (section 4.2; `src/msf/page_list.rs` is
not under `src/`): an ordered list of page numbers with a page size and a
logical byte length. -/
structure PageList where
  page_size : Nat
  pages : List Nat
  length : Nat
deriving DecidableEq

/-- Modelled from the spec: `PageList::new(page_size)` — empty list. -/
def PageList.new (page_size : Nat) : PageList :=
  { page_size := page_size, pages := [], length := 0 }

/-- Modelled from the spec: `PageList::push` — append a page; afterwards the
logical length is `pages.len() × page_size`. -/
def PageList.push (pl : PageList) (p : Nat) : PageList :=
  { pl with pages := pl.pages ++ [p], length := (pl.pages.length + 1) * pl.page_size }

/-- Modelled from the spec: `PageList::truncate(n)` — set logical length to
`min(current, n)` and drop the pages whose entire extent lies past the new
length (the spec leaves dropping to the implementer; it is observable only
through the source-slice sequence). -/
def PageList.truncate (pl : PageList) (n : Nat) : PageList :=
  let newlen := min pl.length n
  { pl with
    pages := pl.pages.take ((newlen + pl.page_size - 1) / pl.page_size),
    length := newlen }

/-- Modelled from the spec: `PageList::len()` — the logical length in bytes. -/
def PageList.len (pl : PageList) : Nat := pl.length

/-- Helper for `source_slices`: one `(offset, size)` slice per page, the final
slice truncated so that the total equals the logical length. -/
def slicesFrom (ps : Nat) : List Nat → Nat → List (Nat × Nat)
  | [], _ => []
  | p :: rest, remaining => (p * ps, min ps remaining) :: slicesFrom ps rest (remaining - ps)

/-- Modelled from the spec: `PageList::source_slices()` — for each page `p` a
byte range starting at `p × page_size`; the final entry may be short. -/
def PageList.source_slices (pl : PageList) : List (Nat × Nat) :=
  slicesFrom pl.page_size pl.pages pl.length

/-- The invariant every PageList built through `new`/`push`/`truncate` enjoys:
the retained page count is exactly `ceil(length / page_size)`. -/
def PageList.Inv (pl : PageList) : Prop :=
  0 < pl.page_size ∧ pl.pages.length = (pl.length + pl.page_size - 1) / pl.page_size

/-- Sum of the lengths of a slice list. -/
def sumLens (sl : List (Nat × Nat)) : Nat := (sl.map Prod.snd).sum

/-- `Header` from `src/msf/mod.rs`: the validated container geometry. -/
structure Header where
  page_size : Nat
  maximum_valid_page_number : Nat
deriving DecidableEq

/-- `Header::pages_needed_to_store` from `src/msf/mod.rs`:
`(bytes + (page_size - 1)) / page_size`. -/
def Header.pages_needed_to_store (h : Header) (bytes : Nat) : Nat :=
  (bytes + (h.page_size - 1)) / h.page_size

/-- `Header::validate_page_number` from `src/msf/mod.rs`: page 0 and pages past
`maximum_valid_page_number` are `PageReferenceOutOfRange`. -/
def Header.validate_page_number (h : Header) (page_number : Nat) : Except Error Nat :=
  if page_number = 0 ∨ h.maximum_valid_page_number < page_number then
    .error (.pageReferenceOutOfRange page_number)
  else
    .ok page_number

/-- Modelled from the spec: the transport capability (section 6; `crate::source`
is not under `src/`): a function from a slice list to either the gathered bytes
or a transport error. -/
abbrev Src := List (Nat × Nat) → Except IoErrorKind Bytes

/-- The bytes of one slice of an in-memory file. -/
def sliceOf (file : Bytes) (s : Nat × Nat) : Bytes := (file.drop s.1).take s.2

/-- Modelled from the spec: the standard in-memory transport — gathers the
requested ranges from `file`, failing with the unexpected-end-of-file kind when
a range runs past the end. -/
def readFile (file : Bytes) : Src := fun slices =>
  if slices.all fun s => s.1 + s.2 ≤ file.length then
    .ok (slices.map (sliceOf file)).flatten
  else
    .error .unexpectedEof

/-- `view` from `src/msf/mod.rs`: ask the source for the PageList's slices and
double-check the returned length; a mismatch is the `assert_eq!` abort, modelled
as the distinguished error `assertViewLen`. -/
def view (src : Src) (pl : PageList) : Except Error Bytes :=
  match src pl.source_slices with
  | .error k => .error (.ioError k)
  | .ok v => if v.length = pl.len then .ok v else .error .assertViewLen

/-- `StreamTable` from `src/msf/mod.rs`: the three-stage directory lifecycle.
The `Available` view is modelled by the viewed bytes themselves. -/
inductive StreamTable where
  | headerOnly (size_in_bytes : Nat) (stream_table_location_location : PageList)
  | tableFound (stream_table_location : PageList)
  | available (stream_table_view : Bytes)
deriving DecidableEq

/-- The lifecycle stage of a stream table, for stating monotonicity. -/
def StreamTable.rank : StreamTable → Nat
  | .headerOnly _ _ => 0
  | .tableFound _ => 1
  | .available _ => 2

/-- The state of a reader: `BigMSF` and `SmallMSF` have the same field shape
`{ header, source, stream_table }`; the source is externalized as a function
parameter, so the modelled state is the header plus the stream table. -/
structure MsfState where
  header : Header
  stream_table : StreamTable
deriving DecidableEq

/-- `big::MAGIC` from `src/msf/big.rs`: the 32 bytes of
`Microsoft C/C++ MSF 7.00\r\n\x1a\x44\x53\x00\x00\x00`. -/
def bigMagic : Bytes :=
  [77, 105, 99, 114, 111, 115, 111, 102, 116, 32,
   67, 47, 67, 43, 43, 32,
   77, 83, 70, 32,
   55, 46, 48, 48,
   13, 10, 26, 68, 83, 0, 0, 0]

/-- `small::MAGIC` from `src/msf/small.rs`: the 44 bytes of
`Microsoft C/C++ program database 2.00\r\n\x1a\x4a\x47\0\0`. -/
def smallMagic : Bytes :=
  [77, 105, 99, 114, 111, 115, 111, 102, 116, 32,
   67, 47, 67, 43, 43, 32,
   112, 114, 111, 103, 114, 97, 109, 32,
   100, 97, 116, 97, 98, 97, 115, 101, 32,
   50, 46, 48, 48,
   13, 10, 26, 74, 71, 0, 0]

/-- `header_matches` from `src/msf/mod.rs`: the candidate magic is a leading
prefix of the viewed header bytes. -/
def header_matches (actual expected : Bytes) : Bool :=
  decide (expected.length ≤ actual.length) && decide (actual.take expected.length = expected)

/-- `u32::is_power_of_two`, on `Nat`. -/
def is_power_of_two (n : Nat) : Bool :=
  decide (n ≠ 0) && decide (n &&& (n - 1) = 0)

/-- Reading a fixed-width raw field (the magic arrays) from a `ParseBuffer`. -/
def take_field (n : Nat) (buf : Bytes) : Except Error (Bytes × Bytes) :=
  if n ≤ buf.length then .ok (buf.take n, buf.drop n) else .error .unexpectedEof

/-- The loop body shared by `BigMSF::read_page_list` (`w = 4`, 32-bit page
numbers), `SmallMSF::read_page_list` (`w = 2`, 16-bit page numbers) and the
final loop of `BigMSF::look_up_stream`: read `count` page numbers of width `w`,
validating each and pushing it onto the PageList. -/
def read_pages (hdr : Header) (w : Nat) : Nat → PageList → Bytes → Except Error (PageList × Bytes)
  | 0, pl, buf => .ok (pl, buf)
  | count + 1, pl, buf =>
    match parse_le w buf with
    | .error e => .error e
    | .ok (n, buf) =>
      match hdr.validate_page_number n with
      | .error e => .error e
      | .ok p => read_pages hdr w count (pl.push p) buf

/-- `read_page_list` from `src/msf/big.rs` (`w = 4`) and `src/msf/small.rs`
(`w = 2`): read `pages_needed_to_store(size)` page numbers, validate each, and
truncate the PageList to `size` bytes. -/
def read_page_list (hdr : Header) (w : Nat) (size : Nat) (buf : Bytes) :
    Except Error (PageList × Bytes) :=
  match read_pages hdr w (hdr.pages_needed_to_store size) (PageList.new hdr.page_size) buf with
  | .error e => .error e
  | .ok (pl, buf) => .ok (pl.truncate size, buf)

/-- `BigMSF::new` from `src/msf/big.rs`: parse the raw header (32-byte magic,
then `page_size`, `free_page_map`, `pages_used`, `directory_size`, reserved —
all little-endian 32-bit), check the magic and the page size, then read the
inline page-list-of-page-list (`pages_needed_to_store(dir_pages × 4)` 32-bit
page numbers, truncated to `dir_pages × 4` bytes) and start in `HeaderOnly`. -/
def BigMSF.new (header_view : Bytes) : Except Error MsfState :=
  match take_field 32 header_view with
  | .error e => .error e
  | .ok (magic, buf) =>
    match parse_le 4 buf with
    | .error e => .error e
    | .ok (page_size, buf) =>
      match parse_le 4 buf with
      | .error e => .error e
      | .ok (_free_page_map, buf) =>
        match parse_le 4 buf with
        | .error e => .error e
        | .ok (pages_used, buf) =>
          match parse_le 4 buf with
          | .error e => .error e
          | .ok (directory_size, buf) =>
            match parse_le 4 buf with
            | .error e => .error e
            | .ok (_reserved, buf) =>
              if magic ≠ bigMagic then
                .error .unrecognizedFileFormat
              else if ¬ is_power_of_two page_size = true ∨ page_size < 0x100
                  ∨ 128 * 0x10000 < page_size then
                .error (.invalidPageSize page_size)
              else
                let header_object : Header :=
                  { page_size := page_size, maximum_valid_page_number := pages_used }
                let size_of_stream_table_in_pages :=
                  header_object.pages_needed_to_store directory_size
                match read_page_list header_object 4 (size_of_stream_table_in_pages * 4) buf with
                | .error e => .error e
                | .ok (stream_table_page_list_page_list, _) =>
                  .ok { header := header_object,
                        stream_table :=
                          .headerOnly directory_size stream_table_page_list_page_list }

/-- `SmallMSF::new` from `src/msf/small.rs`: parse the raw header (44-byte
magic, `page_size` u32, `start_page` u16, `pages_used` u16, `directory_size`
u32, reserved u32), check magic and page size, then read the directory's page
list inline (16-bit page numbers) and start directly in `TableFound`. -/
def SmallMSF.new (header_view : Bytes) : Except Error MsfState :=
  match take_field 44 header_view with
  | .error e => .error e
  | .ok (magic, buf) =>
    match parse_le 4 buf with
    | .error e => .error e
    | .ok (page_size, buf) =>
      match parse_le 2 buf with
      | .error e => .error e
      | .ok (_start_page, buf) =>
        match parse_le 2 buf with
        | .error e => .error e
        | .ok (pages_used, buf) =>
          match parse_le 4 buf with
          | .error e => .error e
          | .ok (directory_size, buf) =>
            match parse_le 4 buf with
            | .error e => .error e
            | .ok (_reserved, buf) =>
              if magic ≠ smallMagic then
                .error .unrecognizedFileFormat
              else if ¬ is_power_of_two page_size = true ∨ page_size < 0x100
                  ∨ 128 * 0x10000 < page_size then
                .error (.invalidPageSize page_size)
              else
                let header_object : Header :=
                  { page_size := page_size, maximum_valid_page_number := pages_used }
                match read_page_list header_object 2 directory_size buf with
                | .error e => .error e
                | .ok (stream_table_location, _) =>
                  .ok { header := header_object,
                        stream_table := .tableFound stream_table_location }

/-- `BigMSF::find_stream_table` from `src/msf/big.rs`: on `HeaderOnly`, view the
page-list-of-page-list, parse successive 32-bit page numbers until the buffer is
exhausted (validating each), truncate to the directory size and move to
`TableFound`.  On error the state is returned untouched, exactly as the Rust
code returns through `?` before assigning `self.stream_table`. -/
def find_stream_table_loop (hdr : Header) : Bytes → PageList → Except Error PageList
  | [], pl => .ok pl
  | b0 :: b1 :: b2 :: b3 :: rest, pl =>
    match hdr.validate_page_number (b0 + 256 * b1 + 65536 * b2 + 16777216 * b3) with
    | .error e => .error e
    | .ok p => find_stream_table_loop hdr rest (pl.push p)
  | _, _ => .error .unexpectedEof

/-- `BigMSF::find_stream_table` proper (see `find_stream_table_loop`). -/
def BigMSF.find_stream_table (src : Src) (m : MsfState) : Except Error Unit × MsfState :=
  match m.stream_table with
  | .headerOnly size_in_bytes stream_table_location_location =>
    match view src stream_table_location_location with
    | .error e => (.error e, m)
    | .ok location_location =>
      match find_stream_table_loop m.header location_location (PageList.new m.header.page_size) with
      | .error e => (.error e, m)
      | .ok page_list =>
        (.ok (), { m with stream_table := .tableFound (page_list.truncate size_in_bytes) })
  | _ => (.ok (), m)

/-- The `TableFound → Available` step shared by `BigMSF` and `SmallMSF`
`make_stream_table_available`: view the directory's PageList and cache the view.
On error the state is returned untouched. -/
def advance_table_found (src : Src) (m : MsfState) : Except Error Unit × MsfState :=
  match m.stream_table with
  | .tableFound stream_table_location =>
    match view src stream_table_location with
    | .error e => (.error e, m)
    | .ok stream_table_view =>
      (.ok (), { m with stream_table := .available stream_table_view })
  | _ => (.ok (), m)

/-- The `assert!(matches!(self.stream_table, StreamTable::Available ..))` at the
end of `make_stream_table_available`; the abort is modelled as the distinguished
error `unreachableState`. -/
def assert_available (m : MsfState) : Except Error Unit :=
  match m.stream_table with
  | .available _ => .ok ()
  | _ => .error .unreachableState

/-- The tail both `make_stream_table_available` implementations share: the
`TableFound → Available` step followed by the final availability assertion. -/
def finish_available (src : Src) (m : MsfState) : Except Error Unit × MsfState :=
  match advance_table_found src m with
  | (.error e, m1) => (.error e, m1)
  | (.ok _, m1) =>
    match assert_available m1 with
    | .error e => (.error e, m1)
    | .ok _ => (.ok (), m1)

/-- `BigMSF::make_stream_table_available` from `src/msf/big.rs`: do the initial
`find_stream_table` read if still in `HeaderOnly`, then map the directory
itself. -/
def BigMSF.make_stream_table_available (src : Src) (m : MsfState) :
    Except Error Unit × MsfState :=
  match (match m.stream_table with
         | .headerOnly _ _ => BigMSF.find_stream_table src m
         | _ => (.ok (), m)) with
  | (.error e, m1) => (.error e, m1)
  | (.ok _, m1) => finish_available src m1

/-- `SmallMSF::make_stream_table_available` from `src/msf/small.rs`: only the
`TableFound → Available` step (Small readers are constructed in `TableFound`). -/
def SmallMSF.make_stream_table_available (src : Src) (m : MsfState) :
    Except Error Unit × MsfState :=
  finish_available src m

/-- Parsing the stream count at the head of the directory: `BigMSF` reads one
u32 (`src/msf/big.rs`); `SmallMSF` reads a u16 count followed by a reserved u16
(`src/msf/small.rs`). -/
def parse_stream_count (big : Bool) (d : Bytes) : Except Error (Nat × Bytes) :=
  if big then parse_le 4 d
  else
    match parse_le 2 d with
    | .error e => .error e
    | .ok (c, buf) =>
      match parse_le 2 buf with
      | .error e => .error e
      | .ok (_reserved, buf) => .ok (c, buf)

/-- Reading the requested stream's size from the directory: a u32 for Big; a
u32 followed by a discarded reserved u32 for Small (`src/msf/big.rs` line 211,
`src/msf/small.rs` lines 163-164). -/
def read_stream_size (big : Bool) (buf : Bytes) : Except Error (Nat × Bytes) :=
  match parse_le 4 buf with
  | .error e => .error e
  | .ok (bytes_in_stream, buf) =>
    match (if big then .ok buf else (parse_le 4 buf).map Prod.snd : Except Error Bytes) with
    | .error e => .error e
    | .ok buf => .ok (bytes_in_stream, buf)

/-- The walk over the sizes of the streams preceding the requested one: for each
such stream read its size entry exactly as `read_stream_size` does (a u32, with
a discarded reserved u32 when `withReserved`, i.e. for Small), and accumulate
`pages_needed_to_store(size)` for each size that is not the sentinel
`0xFFFF_FFFF` (`src/msf/big.rs` / `src/msf/small.rs`). -/
def skip_stream_sizes (hdr : Header) (withReserved : Bool) :
    Nat → Bytes → Nat → Except Error (Nat × Bytes)
  | 0, buf, acc => .ok (acc, buf)
  | k + 1, buf, acc =>
    match read_stream_size (!withReserved) buf with
    | .error e => .error e
    | .ok (bytes, buf) =>
      if bytes = 0xFFFFFFFF then skip_stream_sizes hdr withReserved k buf acc
      else skip_stream_sizes hdr withReserved k buf (acc + hdr.pages_needed_to_store bytes)

/-- The tail of `look_up_stream` once the requested stream's size is known:
skip the remaining streams' size entries, skip the preceding streams' page
numbers, then read this stream's page numbers (validating each) truncated to the
stream size. -/
def look_up_tail (hdr : Header) (big : Bool)
    (stream_count stream_number page_numbers_to_skip bytes_in_stream : Nat)
    (buf : Bytes) : Except Error PageList :=
  match take_bytes ((stream_count - stream_number - 1) * (if big then 4 else 8)) buf with
  | .error e => .error e
  | .ok buf =>
    match take_bytes (page_numbers_to_skip * (if big then 4 else 2)) buf with
    | .error e => .error e
    | .ok buf =>
      match read_page_list hdr (if big then 4 else 2) bytes_in_stream buf with
      | .error e => .error e
      | .ok (page_list, _) => .ok page_list

/-- `look_up_stream` after the stream count has been parsed: bounds check, the
walk over the preceding sizes, the sentinel check, then `look_up_tail`. -/
def look_up_with_count (hdr : Header) (big : Bool) (stream_count stream_number : Nat)
    (buf : Bytes) : Except Error PageList :=
  if stream_count ≤ stream_number then
    .error (.streamNotFound stream_number)
  else
    match skip_stream_sizes hdr (!big) stream_number buf 0 with
    | .error e => .error e
    | .ok (page_numbers_to_skip, buf) =>
      match read_stream_size big buf with
      | .error e => .error e
      | .ok (bytes_in_stream, buf) =>
        if bytes_in_stream = 0xFFFFFFFF then
          .error (.streamNotFound stream_number)
        else
          look_up_tail hdr big stream_count stream_number page_numbers_to_skip
            bytes_in_stream buf

/-- The pure part of `look_up_stream` (`src/msf/big.rs` lines 162-241 with
`big = true`, `src/msf/small.rs` lines 112-183 with `big = false`), run against
the available directory bytes: parse the stream count, bounds-check the request,
walk the preceding sizes, read the requested size (sentinel `0xFFFF_FFFF` means
`StreamNotFound`), skip the remaining size entries and the preceding streams'
page numbers, then read this stream's page numbers (u32 for Big, u16 for Small),
validating each, truncated to the stream size. -/
def look_up_stream_in (hdr : Header) (big : Bool) (d : Bytes) (stream_number : Nat) :
    Except Error PageList :=
  match parse_stream_count big d with
  | .error e => .error e
  | .ok (stream_count, buf) => look_up_with_count hdr big stream_count stream_number buf

/-- `look_up_stream` with the state machine around it: first
`make_stream_table_available`, then the pure walk on the available view; the
`unreachable!()` arm is the error `unreachableState`. -/
def msf_look_up_stream (src : Src) (big : Bool) (m : MsfState) (stream_number : Nat) :
    Except Error PageList × MsfState :=
  match (if big then BigMSF.make_stream_table_available src m
         else SmallMSF.make_stream_table_available src m) with
  | (.error e, m1) => (.error e, m1)
  | (.ok _, m1) =>
    match m1.stream_table with
    | .available stream_table_view =>
      (look_up_stream_in m1.header big stream_table_view stream_number, m1)
    | _ => (.error .unreachableState, m1)

/-- Applying the optional byte limit: `if let Some(limit) = limit {
page_list.truncate(limit) }` in both `get` implementations. -/
def apply_limit (page_list : PageList) : Option Nat → PageList
  | some l => page_list.truncate l
  | none => page_list

/-- `Msf::get` (`src/msf/big.rs` lines 244-262 with `big = true`,
`src/msf/small.rs` lines 186-204 with `big = false`): look up the stream's
PageList, apply the optional byte limit by truncation, then view the pages. -/
def msf_get (src : Src) (big : Bool) (m : MsfState) (stream_number : Nat)
    (limit : Option Nat) : Except Error Bytes × MsfState :=
  match msf_look_up_stream src big m stream_number with
  | (.error e, m1) => (.error e, m1)
  | (.ok page_list, m1) =>
    match view src (apply_limit page_list limit) with
    | .error e => (.error e, m1)
    | .ok v => (.ok v, m1)

/-- `BigMSF::get`. -/
def BigMSF.get (src : Src) (m : MsfState) (stream_number : Nat) (limit : Option Nat) :
    Except Error Bytes × MsfState :=
  msf_get src true m stream_number limit

/-- `SmallMSF::get`. -/
def SmallMSF.get (src : Src) (m : MsfState) (stream_number : Nat) (limit : Option Nat) :
    Except Error Bytes × MsfState :=
  msf_get src false m stream_number limit

/-- The polymorphic reader returned by `open_msf` (`Box<dyn Msf>`). -/
inductive MsfReader where
  | big (m : MsfState)
  | small (m : MsfState)
deriving DecidableEq

/-- Dispatch of `Msf::get` through the boxed reader. -/
def MsfReader.get (src : Src) : MsfReader → Nat → Option Nat → Except Error Bytes × MsfReader
  | .big m, stream_number, limit =>
    match BigMSF.get src m stream_number limit with
    | (r, m1) => (r, .big m1)
  | .small m, stream_number, limit =>
    match SmallMSF.get src m stream_number limit with
    | (r, m1) => (r, .small m1)

/-- The header of the reader behind the dispatch. -/
def MsfReader.header : MsfReader → Header
  | .big m => m.header
  | .small m => m.header

/-- The stream table of the reader behind the dispatch. -/
def MsfReader.stream_table : MsfReader → StreamTable
  | .big m => m.stream_table
  | .small m => m.stream_table

/-- `open_msf` from `src/msf/mod.rs`: view the first page through a provisional
4096-byte page, rewriting an unexpected-end-of-file transport error to
`UnrecognizedFileFormat`; match the Big magic first, then the Small magic;
neither match is `UnrecognizedFileFormat`. -/
def open_msf (src : Src) : Except Error MsfReader :=
  match view src ((PageList.new 4096).push 0) with
  | .error e =>
    match e with
    | .ioError .unexpectedEof => .error .unrecognizedFileFormat
    | .ioError k => .error (.ioError k)
    | _ => .error e
  | .ok header_view =>
    if header_matches header_view bigMagic then
      match BigMSF.new header_view with
      | .error e => .error e
      | .ok m => .ok (.big m)
    else if header_matches header_view smallMagic then
      match SmallMSF.new header_view with
      | .error e => .error e
      | .ok m => .ok (.small m)
    else
      .error .unrecognizedFileFormat

/-! ### Definitions used only in theorem statements: encodings of well-formed
images, and concrete example images. -/

/-- Pushing a list of pages one by one. -/
def pushAll (pl : PageList) (ps : List Nat) : PageList := ps.foldl PageList.push pl

/-- One stream of a synthetic image: its content bytes and the page numbers it
occupies. -/
structure StreamEntry where
  content : Bytes
  pages : List Nat
deriving DecidableEq

/-- The size field a directory records for a stream: the content length for a
present stream, the sentinel `0xFFFF_FFFF` for an absent one. -/
def descSize : Option StreamEntry → Nat
  | none => 0xFFFFFFFF
  | some e => e.content.length

/-- The directory's size entry for one stream: a u32 size for Big, a u32 size
plus a reserved u32 for Small. -/
def sizeEntryBytes (big : Bool) (d : Option StreamEntry) : Bytes :=
  leBytes 4 (descSize d) ++ (if big then [] else leBytes 4 0)

/-- The directory's page-number array for one stream: nothing for an absent
stream, the page numbers (u32 for Big, u16 for Small) for a present one. -/
def pagesEntryBytes (big : Bool) : Option StreamEntry → Bytes
  | none => []
  | some e => (e.pages.map (leBytes (if big then 4 else 2))).flatten

/-- The canonical on-disk directory encoding (spec section 6): the stream count
(u32 for Big; u16 count plus u16 reserved for Small), the size entries, then the
present streams' page-number arrays in order. -/
def encodeDir (big : Bool) (descs : List (Option StreamEntry)) : Bytes :=
  (if big then leBytes 4 descs.length else leBytes 2 descs.length ++ leBytes 2 0)
  ++ (descs.map (sizeEntryBytes big)).flatten
  ++ (descs.map (pagesEntryBytes big)).flatten

/-- The pages the directory walk must skip for the streams preceding the
requested one. -/
def skipCount (hdr : Header) (descs : List (Option StreamEntry)) : Nat :=
  (descs.map fun d => match d with
    | none => 0
    | some e => hdr.pages_needed_to_store e.content.length).sum

/-- Well-formedness of one directory entry for a given header and page-number
width: a present stream's size is below the sentinel, its page count matches
`pages_needed_to_store`, and every page number is valid and encodable. -/
def entryWF (hdr : Header) (w : Nat) : Option StreamEntry → Prop
  | none => True
  | some e =>
    e.content.length < 0xFFFFFFFF
    ∧ e.pages.length = hdr.pages_needed_to_store e.content.length
    ∧ ∀ p ∈ e.pages, ¬(p = 0 ∨ hdr.maximum_valid_page_number < p) ∧ p < 256 ^ w

instance (hdr : Header) (w : Nat) (d : Option StreamEntry) : Decidable (entryWF hdr w d) := by
  cases d <;> simp only [entryWF] <;> infer_instance

/-- The u32 size the directory records for stream `n`, read off the byte region
that follows the stream count (`4` bytes per entry for Big, `8` for Small). -/
def stream_size_at (big : Bool) (rest : Bytes) (n : Nat) : Nat :=
  leVal 4 (rest.drop ((if big then 4 else 8) * n))

/-- A run of zero bytes (padding in the example images). -/
def zeros (n : Nat) : Bytes := List.replicate n 0

/-- Example Big image (page size 256, 16 pages): page 0 holds the header (the
directory size is 12, the page-list-of-page-list is `[1]`), page 1 holds the
directory's page list `[2]`, page 2 holds the directory (one stream of size 2 on
page 3), page 3 holds the stream content `[104, 105]`. -/
def exBigFile : Bytes :=
  (bigMagic ++ leBytes 4 256 ++ leBytes 4 0 ++ leBytes 4 15 ++ leBytes 4 12 ++ leBytes 4 0
    ++ leBytes 4 1 ++ zeros 200)
  ++ (leBytes 4 2 ++ zeros 252)
  ++ (leBytes 4 1 ++ leBytes 4 2 ++ leBytes 4 3 ++ zeros 244)
  ++ ([104, 105] ++ zeros 254)
  ++ zeros (12 * 256)

/-- The streams `exBigFile` encodes: one present stream `hi` on page 3. -/
def exBigDescs : List (Option StreamEntry) := [some ⟨[104, 105], [3]⟩]

/-- Example Small image (page size 256, 16 pages): page 0 holds the header (the
directory size is 14, the directory's page list is `[1]`), page 1 holds the
directory (one stream of size 2 on page 2), page 2 holds the content. -/
def exSmallFile : Bytes :=
  (smallMagic ++ leBytes 4 256 ++ leBytes 2 0 ++ leBytes 2 15 ++ leBytes 4 14 ++ leBytes 4 0
    ++ leBytes 2 1 ++ zeros 194)
  ++ (leBytes 2 1 ++ leBytes 2 0 ++ leBytes 4 2 ++ leBytes 4 0 ++ leBytes 2 2 ++ zeros 242)
  ++ ([104, 105] ++ zeros 254)
  ++ zeros (13 * 256)

/-- The streams `exSmallFile` encodes. -/
def exSmallDescs : List (Option StreamEntry) := [some ⟨[104, 105], [2]⟩]

/-- A tiny in-memory file for witnesses: page 0 is zeros, page 1 starts with
the two content bytes `hi`. -/
def exTinyFile : Bytes := zeros 256 ++ [104, 105]

/-- The directory for `exTinyFile`: one present stream of size 2 on page 1. -/
def exTinyDescs : List (Option StreamEntry) := [some ⟨[104, 105], [1]⟩]

/-- A transport that always reports an unexpected end of file. -/
def eofSrc : Src := fun _ => .error .unexpectedEof

/-- A transport that always reports a non-EOF error with the given code. -/
def otherErrSrc (code : Nat) : Src := fun _ => .error (.other code)

/-- A complete Big header image for the round-trip example: page size 256,
16 pages, directory size 12, page-list-of-page-list `[1]`, padded to the
4096-byte provisional page. -/
def exC1BigHdr : Bytes :=
  bigMagic ++ leBytes 4 256 ++ leBytes 4 0 ++ leBytes 4 15 ++ leBytes 4 12 ++ leBytes 4 0
    ++ (([1].map (leBytes 4)).flatten ++ zeros 4040)

/-- A transport presenting the Big round-trip example: the header page, the
directory's page list (page 2) on page 1, the directory on page 2, the stream
content on page 3. -/
def exC1BigSrc : Src := fun sl =>
  if sl = [(0, 4096)] then .ok exC1BigHdr
  else if sl = [(256, 4)] then .ok (([2].map (leBytes 4)).flatten)
  else if sl = [(512, 12)] then .ok (encodeDir true exBigDescs)
  else if sl = [(768, 2)] then .ok [104, 105]
  else .error .unexpectedEof

/-- A complete Small header image for the round-trip example: page size 256,
16 pages, directory size 14, directory page list `[1]`, padded to the 4096-byte
provisional page. -/
def exC1SmallHdr : Bytes :=
  smallMagic ++ leBytes 4 256 ++ leBytes 2 0 ++ leBytes 2 15 ++ leBytes 4 14 ++ leBytes 4 0
    ++ (([1].map (leBytes 2)).flatten ++ zeros 4034)

/-- A transport presenting the Small round-trip example: the header page, the
directory on page 1, the stream content on page 2. -/
def exC1SmallSrc : Src := fun sl =>
  if sl = [(0, 4096)] then .ok exC1SmallHdr
  else if sl = [(256, 14)] then .ok (encodeDir false exSmallDescs)
  else if sl = [(512, 2)] then .ok [104, 105]
  else .error .unexpectedEof

/-! ### Basic lemmas about parsing, encoding and PageLists -/

theorem parse_le_err {k : Nat} {buf : Bytes} {e : Error} (h : parse_le k buf = .error e) :
    e = .unexpectedEof := by
  induction k generalizing buf with
  | zero => simp [parse_le] at h
  | succ k ih =>
    cases buf with
    | nil =>
      simp only [parse_le, Except.error.injEq] at h
      exact h.symm
    | cons b rest =>
      simp only [parse_le] at h
      cases hp : parse_le k rest with
      | error e2 =>
        rw [hp] at h
        simp only [Except.error.injEq] at h
        subst h
        exact ih hp
      | ok v =>
        rw [hp] at h
        simp at h

theorem parse_le_of_le_length {k : Nat} {buf : Bytes} (h : k ≤ buf.length) :
    parse_le k buf = .ok (leVal k buf, buf.drop k) := by
  induction k generalizing buf with
  | zero => simp [parse_le, leVal]
  | succ k ih =>
    cases buf with
    | nil => simp at h
    | cons b rest =>
      simp only [List.length_cons, Nat.succ_le_succ_iff] at h
      simp only [parse_le, leVal, ih h, List.drop_succ_cons]

theorem leBytes_length (k v : Nat) : (leBytes k v).length = k := by
  induction k generalizing v with
  | zero => simp [leBytes]
  | succ k ih => simp [leBytes, ih]

theorem parse_le_leBytes {k v : Nat} (rest : Bytes) (h : v < 256 ^ k) :
    parse_le k (leBytes k v ++ rest) = .ok (v, rest) := by
  induction k generalizing v with
  | zero =>
    simp only [pow_zero, Nat.lt_one_iff] at h
    simp [leBytes, parse_le, h]
  | succ k ih =>
    have hd : v / 256 < 256 ^ k := by
      rw [Nat.div_lt_iff_lt_mul (by norm_num)]
      calc v < 256 ^ (k + 1) := h
      _ = 256 ^ k * 256 := by ring
    simp only [leBytes, List.cons_append, parse_le, List.append_eq]
    rw [ih hd]
    have hval : v % 256 + 256 * (v / 256) = v := by omega
    show Except.ok (v % 256 + 256 * (v / 256), rest) = Except.ok (v, rest)
    rw [hval]

theorem take_field_append (a b : Bytes) : take_field a.length (a ++ b) = .ok (a, b) := by
  simp [take_field, List.take_left, List.drop_left]

theorem take_bytes_append (a b : Bytes) : take_bytes a.length (a ++ b) = .ok b := by
  simp [take_bytes, List.drop_left]

theorem take_bytes_err {n : Nat} {buf : Bytes} {e : Error}
    (h : take_bytes n buf = .error e) : e = .unexpectedEof := by
  unfold take_bytes at h
  split at h
  · simp at h
  · simp only [Except.error.injEq] at h
    exact h.symm

theorem pushAll_spec (psz : Nat) (l ps : List Nat) :
    pushAll ⟨psz, l, l.length * psz⟩ ps = ⟨psz, l ++ ps, (l ++ ps).length * psz⟩ := by
  induction ps generalizing l with
  | nil => simp [pushAll]
  | cons p ps ih =>
    have hstep : PageList.push ⟨psz, l, l.length * psz⟩ p
        = ⟨psz, l ++ [p], (l ++ [p]).length * psz⟩ := by
      simp [PageList.push]
    have : pushAll ⟨psz, l, l.length * psz⟩ (p :: ps)
        = pushAll ⟨psz, l ++ [p], (l ++ [p]).length * psz⟩ ps := by
      simp only [pushAll, List.foldl_cons, hstep]
    rw [this, ih]
    simp

theorem ceil_mul_ge {psz : Nat} (h : 0 < psz) (size : Nat) :
    size ≤ ((size + (psz - 1)) / psz) * psz := by
  rcases Nat.eq_zero_or_pos size with h0 | h0
  · simp [h0]
  · have h1 : size + (psz - 1) = (size - 1) + psz := by omega
    rw [h1, Nat.add_div_right _ h]
    have h2 := Nat.lt_div_mul_add (a := size - 1) h
    calc size = size - 1 + 1 := by omega
    _ ≤ (size - 1) / psz * psz + psz := Nat.succ_le_of_lt h2
    _ = ((size - 1) / psz + 1) * psz := by ring

theorem ceil_zero {psz : Nat} (h : 0 < psz) : (0 + psz - 1) / psz = 0 :=
  Nat.div_eq_of_lt (by omega)

theorem ceil_eq_zero_iff {psz len : Nat} (h : 0 < psz) :
    (len + psz - 1) / psz = 0 ↔ len = 0 := by
  constructor
  · intro hc
    by_contra hlen
    have h1 : 1 ≤ (len + psz - 1) / psz := by
      rw [Nat.one_le_div_iff h]
      omega
    omega
  · intro hlen
    subst hlen
    exact ceil_zero h

theorem ceil_succ {psz len : Nat} (h : 0 < psz) (hlen : 0 < len) :
    (len + psz - 1) / psz = (len - 1) / psz + 1 := by
  have h1 : len + psz - 1 = (len - 1) + psz := by omega
  rw [h1, Nat.add_div_right _ h]

theorem read_pages_enc (hdr : Header) (w : Nat) (ps : List Nat) (pl : PageList) (rest : Bytes)
    (hv : ∀ p ∈ ps, ¬(p = 0 ∨ hdr.maximum_valid_page_number < p) ∧ p < 256 ^ w) :
    read_pages hdr w ps.length pl ((ps.map (leBytes w)).flatten ++ rest)
      = .ok (pushAll pl ps, rest) := by
  induction ps generalizing pl with
  | nil => simp [read_pages, pushAll]
  | cons p ps ih =>
    obtain ⟨h1, h2⟩ := hv p (by simp)
    have htail : ∀ q ∈ ps, ¬(q = 0 ∨ hdr.maximum_valid_page_number < q) ∧ q < 256 ^ w :=
      fun q hq => hv q (by simp [hq])
    simp only [List.map_cons, List.flatten_cons, List.length_cons, List.append_assoc]
    simp only [read_pages, parse_le_leBytes _ h2, Header.validate_page_number, if_neg h1]
    exact ih (pl.push p) htail

theorem read_page_list_enc (hdr : Header) (w : Nat) (size : Nat) (ps : List Nat) (rest : Bytes)
    (hpsz : 0 < hdr.page_size)
    (hlen : ps.length = hdr.pages_needed_to_store size)
    (hv : ∀ p ∈ ps, ¬(p = 0 ∨ hdr.maximum_valid_page_number < p) ∧ p < 256 ^ w) :
    read_page_list hdr w size ((ps.map (leBytes w)).flatten ++ rest)
      = .ok (⟨hdr.page_size, ps, size⟩, rest) := by
  unfold read_page_list
  rw [← hlen, read_pages_enc hdr w ps _ rest hv]
  have h1 : pushAll (PageList.new hdr.page_size) ps
      = ⟨hdr.page_size, ps, ps.length * hdr.page_size⟩ := by
    have := pushAll_spec hdr.page_size [] ps
    simpa [PageList.new] using this
  rw [h1]
  have hge : size ≤ ps.length * hdr.page_size := by
    rw [hlen]
    exact ceil_mul_ge hpsz size
  have hmin : min (ps.length * hdr.page_size) size = size := min_eq_right hge
  have htake : ps.take ((size + hdr.page_size - 1) / hdr.page_size) = ps := by
    have harg : size + hdr.page_size - 1 = size + (hdr.page_size - 1) := by omega
    rw [harg, ← Header.pages_needed_to_store, ← hlen, List.take_length]
  simp [PageList.truncate, hmin, htake]

/-! ### PageList invariant -/

theorem Inv_new {psz : Nat} (h : 0 < psz) : (PageList.new psz).Inv := by
  refine ⟨h, ?_⟩
  simp only [PageList.new, List.length_nil]
  exact (Nat.div_eq_of_lt (by omega)).symm

theorem Inv_push {pl : PageList} {p : Nat} (h : pl.Inv) : (pl.push p).Inv := by
  obtain ⟨h1, _⟩ := h
  refine ⟨h1, ?_⟩
  simp only [PageList.push, List.length_append, List.length_cons, List.length_nil]
  have : (pl.pages.length + 1) * pl.page_size + pl.page_size - 1
      = pl.page_size * (pl.pages.length + 1) + (pl.page_size - 1) := by ring_nf; omega
  rw [this, Nat.mul_add_div h1, Nat.div_eq_of_lt (by omega)]

theorem Inv_truncate {pl : PageList} (n : Nat) (h : pl.Inv) : (pl.truncate n).Inv := by
  obtain ⟨h1, h2⟩ := h
  refine ⟨h1, ?_⟩
  simp only [PageList.truncate, List.length_take]
  have hle : min pl.length n ≤ pl.length := Nat.min_le_left _ _
  have hmono : (min pl.length n + pl.page_size - 1) / pl.page_size
      ≤ (pl.length + pl.page_size - 1) / pl.page_size :=
    Nat.div_le_div_right (by omega)
  omega

theorem slicesFrom_sum {ps : Nat} (h : 0 < ps) :
    ∀ (pages : List Nat) (len : Nat),
      pages.length = (len + ps - 1) / ps → sumLens (slicesFrom ps pages len) = len := by
  intro pages
  induction pages with
  | nil =>
    intro len hl
    have : len = 0 := (ceil_eq_zero_iff h).mp hl.symm
    simp [slicesFrom, sumLens, this]
  | cons p rest ih =>
    intro len hl
    have hlen1 : 0 < len := by
      by_contra hc
      have hz : len = 0 := by omega
      rw [hz, ceil_zero h] at hl
      simp at hl
    simp only [List.length_cons] at hl
    rw [ceil_succ h hlen1] at hl
    have hrest : rest.length = (len - ps + ps - 1) / ps := by
      rcases le_or_lt len ps with hle | hlt
      · have hz : len - ps = 0 := by omega
        rw [hz, ceil_zero h]
        have : (len - 1) / ps = 0 := Nat.div_eq_of_lt (by omega)
        omega
      · have h1 : len - ps + ps - 1 = (len - ps - 1) + ps := by omega
        have h2 : len - 1 = (len - ps - 1) + ps := by omega
        rw [h1, Nat.add_div_right _ h]
        rw [h2, Nat.add_div_right _ h] at hl
        omega
    have hsum := ih (len - ps) hrest
    simp only [sumLens] at hsum
    simp only [slicesFrom, sumLens, List.map_cons, List.sum_cons]
    omega

theorem sum_source_slices {pl : PageList} (h : pl.Inv) :
    sumLens pl.source_slices = pl.len :=
  slicesFrom_sum h.1 pl.pages pl.length h.2

/-! ### State machine lemmas -/

theorem find_eq_headerOnly {m : MsfState} {s : Nat} {ll : PageList} (src : Src)
    (hst : m.stream_table = .headerOnly s ll) :
    BigMSF.find_stream_table src m =
      match view src ll with
      | .error e => (.error e, m)
      | .ok bytes =>
        match find_stream_table_loop m.header bytes (PageList.new m.header.page_size) with
        | .error e => (.error e, m)
        | .ok pl => (.ok (), { m with stream_table := .tableFound (pl.truncate s) }) := by
  unfold BigMSF.find_stream_table
  rw [hst]

theorem find_eq_tableFound {m : MsfState} {loc : PageList} (src : Src)
    (hst : m.stream_table = .tableFound loc) :
    BigMSF.find_stream_table src m = (.ok (), m) := by
  unfold BigMSF.find_stream_table
  rw [hst]

theorem find_eq_available {m : MsfState} {v : Bytes} (src : Src)
    (hst : m.stream_table = .available v) :
    BigMSF.find_stream_table src m = (.ok (), m) := by
  unfold BigMSF.find_stream_table
  rw [hst]

theorem adv_eq_headerOnly {m : MsfState} {s : Nat} {ll : PageList} (src : Src)
    (hst : m.stream_table = .headerOnly s ll) :
    advance_table_found src m = (.ok (), m) := by
  unfold advance_table_found
  rw [hst]

theorem adv_eq_tableFound {m : MsfState} {loc : PageList} (src : Src)
    (hst : m.stream_table = .tableFound loc) :
    advance_table_found src m =
      match view src loc with
      | .error e => (.error e, m)
      | .ok v => (.ok (), { m with stream_table := .available v }) := by
  unfold advance_table_found
  rw [hst]

theorem adv_eq_available {m : MsfState} {v : Bytes} (src : Src)
    (hst : m.stream_table = .available v) :
    advance_table_found src m = (.ok (), m) := by
  unfold advance_table_found
  rw [hst]

theorem find_stream_table_header (src : Src) (m : MsfState) :
    (BigMSF.find_stream_table src m).2.header = m.header := by
  rcases hst : m.stream_table with ⟨s, ll⟩ | ⟨loc⟩ | ⟨v⟩
  · rw [find_eq_headerOnly src hst]
    split
    · rfl
    · split
      · rfl
      · rfl
  · rw [find_eq_tableFound src hst]
  · rw [find_eq_available src hst]

theorem find_stream_table_err {src : Src} {m : MsfState} {e : Error} {m1 : MsfState}
    (h : BigMSF.find_stream_table src m = (.error e, m1)) : m1 = m := by
  rcases hst : m.stream_table with ⟨s, ll⟩ | ⟨loc⟩ | ⟨v⟩
  · rw [find_eq_headerOnly src hst] at h
    split at h
    · simp only [Prod.mk.injEq] at h
      exact h.2.symm
    · split at h
      · simp only [Prod.mk.injEq] at h
        exact h.2.symm
      · simp at h
  · rw [find_eq_tableFound src hst] at h
    simp at h
  · rw [find_eq_available src hst] at h
    simp at h

theorem find_stream_table_rank (src : Src) (m : MsfState) :
    m.stream_table.rank ≤ (BigMSF.find_stream_table src m).2.stream_table.rank := by
  rcases hst : m.stream_table with ⟨s, ll⟩ | ⟨loc⟩ | ⟨v⟩
  · rw [find_eq_headerOnly src hst]
    split
    · simp [hst, StreamTable.rank]
    · split <;> simp [hst, StreamTable.rank]
  · rw [find_eq_tableFound src hst]
    simp [hst]
  · rw [find_eq_available src hst]
    simp [hst]

theorem advance_table_found_header (src : Src) (m : MsfState) :
    (advance_table_found src m).2.header = m.header := by
  rcases hst : m.stream_table with ⟨s, ll⟩ | ⟨loc⟩ | ⟨v⟩
  · rw [adv_eq_headerOnly src hst]
  · rw [adv_eq_tableFound src hst]
    split
    · rfl
    · rfl
  · rw [adv_eq_available src hst]

theorem advance_table_found_err {src : Src} {m : MsfState} {e : Error} {m1 : MsfState}
    (h : advance_table_found src m = (.error e, m1)) : m1 = m := by
  rcases hst : m.stream_table with ⟨s, ll⟩ | ⟨loc⟩ | ⟨v⟩
  · rw [adv_eq_headerOnly src hst] at h
    simp at h
  · rw [adv_eq_tableFound src hst] at h
    split at h
    · simp only [Prod.mk.injEq] at h
      exact h.2.symm
    · simp at h
  · rw [adv_eq_available src hst] at h
    simp at h

theorem advance_table_found_rank (src : Src) (m : MsfState) :
    m.stream_table.rank ≤ (advance_table_found src m).2.stream_table.rank := by
  rcases hst : m.stream_table with ⟨s, ll⟩ | ⟨loc⟩ | ⟨v⟩
  · rw [adv_eq_headerOnly src hst]
    simp [hst]
  · rw [adv_eq_tableFound src hst]
    split <;> simp [hst, StreamTable.rank]
  · rw [adv_eq_available src hst]
    simp [hst]

theorem advance_table_found_ok {src : Src} {m : MsfState} {m1 : MsfState}
    (h : advance_table_found src m = (.ok (), m1)) :
    m1 = m ∨ ∃ w, m1.stream_table = .available w := by
  rcases hst : m.stream_table with ⟨s, ll⟩ | ⟨loc⟩ | ⟨v⟩
  · rw [adv_eq_headerOnly src hst] at h
    simp only [Prod.mk.injEq] at h
    exact Or.inl h.2.symm
  · rw [adv_eq_tableFound src hst] at h
    split at h
    · simp at h
    · simp only [Prod.mk.injEq] at h
      exact Or.inr ⟨_, by rw [← h.2]⟩
  · rw [adv_eq_available src hst] at h
    simp only [Prod.mk.injEq] at h
    exact Or.inl h.2.symm

theorem assert_available_ok {m : MsfState} {u : Unit} (h : assert_available m = .ok u) :
    ∃ v, m.stream_table = .available v := by
  unfold assert_available at h
  rcases hst : m.stream_table with ⟨s, ll⟩ | ⟨loc⟩ | ⟨v⟩ <;> rw [hst] at h
  · simp at h
  · simp at h
  · exact ⟨v, rfl⟩

theorem assert_available_of {m : MsfState} {v : Bytes} (h : m.stream_table = .available v) :
    assert_available m = .ok () := by
  unfold assert_available
  rw [h]

theorem finish_header (src : Src) (m : MsfState) :
    (finish_available src m).2.header = m.header := by
  unfold finish_available
  split
  next e m1 heq =>
    have hh := advance_table_found_header src m
    rw [heq] at hh
    exact hh
  next u m1 heq =>
    have hh := advance_table_found_header src m
    rw [heq] at hh
    split
    · exact hh
    · exact hh

theorem finish_err {src : Src} {m : MsfState} {e : Error} {m1 : MsfState}
    (h : finish_available src m = (.error e, m1)) : m1 = m := by
  unfold finish_available at h
  split at h
  next e2 m2 heq =>
    simp only [Prod.mk.injEq] at h
    rw [← h.2]
    exact advance_table_found_err heq
  next u m2 heq =>
    cases u
    split at h
    next e2 hass =>
      simp only [Prod.mk.injEq] at h
      rcases advance_table_found_ok heq with hm | ⟨w, hw⟩
      · rw [← h.2, hm]
      · rw [assert_available_of hw] at hass
        simp at hass
    next u2 hass =>
      simp at h

theorem finish_on_available {src : Src} {m : MsfState} {v : Bytes}
    (h : m.stream_table = .available v) : finish_available src m = (.ok (), m) := by
  unfold finish_available
  rw [adv_eq_available src h]
  simp [assert_available_of h]

theorem finish_ok {src : Src} {m : MsfState} {m1 : MsfState}
    (h : finish_available src m = (.ok (), m1)) :
    ∃ w, m1.stream_table = .available w := by
  unfold finish_available at h
  split at h
  next e m2 heq => simp at h
  next u m2 heq =>
    cases u
    split at h
    next e hass => simp at h
    next u2 hass =>
      simp only [Prod.mk.injEq] at h
      rw [← h.2]
      exact assert_available_ok hass

theorem finish_rank (src : Src) (m : MsfState) :
    m.stream_table.rank ≤ (finish_available src m).2.stream_table.rank := by
  unfold finish_available
  split
  next e m2 heq =>
    have hr := advance_table_found_rank src m
    rw [heq] at hr
    exact hr
  next u m2 heq =>
    have hr := advance_table_found_rank src m
    rw [heq] at hr
    split
    · exact hr
    · exact hr

theorem big_msta_eq_headerOnly {m : MsfState} {s : Nat} {ll : PageList} (src : Src)
    (hst : m.stream_table = .headerOnly s ll) :
    BigMSF.make_stream_table_available src m =
      match BigMSF.find_stream_table src m with
      | (.error e, m1) => (.error e, m1)
      | (.ok _, m1) => finish_available src m1 := by
  unfold BigMSF.make_stream_table_available
  rw [hst]

theorem big_msta_eq_other {m : MsfState} (src : Src)
    (h : ∀ s ll, m.stream_table ≠ .headerOnly s ll) :
    BigMSF.make_stream_table_available src m = finish_available src m := by
  unfold BigMSF.make_stream_table_available
  rcases hst : m.stream_table with ⟨s, ll⟩ | ⟨loc⟩ | ⟨v⟩
  · exact absurd hst (h s ll)
  · rfl
  · rfl

theorem big_msta_header (src : Src) (m : MsfState) :
    (BigMSF.make_stream_table_available src m).2.header = m.header := by
  rcases hst : m.stream_table with ⟨s, ll⟩ | ⟨loc⟩ | ⟨v⟩
  · rw [big_msta_eq_headerOnly src hst]
    rcases hf : BigMSF.find_stream_table src m with ⟨r, m1⟩
    have hh := find_stream_table_header src m
    rw [hf] at hh
    cases r with
    | error e => exact hh
    | ok u => exact (finish_header src m1).trans hh
  · rw [big_msta_eq_other src (by simp [hst])]
    exact finish_header src m
  · rw [big_msta_eq_other src (by simp [hst])]
    exact finish_header src m

theorem big_msta_err {src : Src} {m : MsfState} {e : Error} {m1 : MsfState}
    (h : BigMSF.make_stream_table_available src m = (.error e, m1)) :
    m1 = m ∨ ((BigMSF.find_stream_table src m).1 = .ok ()
      ∧ m1 = (BigMSF.find_stream_table src m).2) := by
  rcases hst : m.stream_table with ⟨s, ll⟩ | ⟨loc⟩ | ⟨v⟩
  · rw [big_msta_eq_headerOnly src hst] at h
    rcases hf : BigMSF.find_stream_table src m with ⟨r, m2⟩
    rw [hf] at h
    cases r with
    | error e2 =>
      simp only [Prod.mk.injEq] at h
      left
      rw [← h.2]
      exact find_stream_table_err hf
    | ok u =>
      cases u
      right
      exact ⟨rfl, finish_err h⟩
  · rw [big_msta_eq_other src (by simp [hst])] at h
    exact Or.inl (finish_err h)
  · rw [big_msta_eq_other src (by simp [hst])] at h
    exact Or.inl (finish_err h)

theorem big_msta_ok {src : Src} {m : MsfState} {m1 : MsfState}
    (h : BigMSF.make_stream_table_available src m = (.ok (), m1)) :
    ∃ w, m1.stream_table = .available w := by
  rcases hst : m.stream_table with ⟨s, ll⟩ | ⟨loc⟩ | ⟨v⟩
  · rw [big_msta_eq_headerOnly src hst] at h
    rcases hf : BigMSF.find_stream_table src m with ⟨r, m2⟩
    rw [hf] at h
    cases r with
    | error e => simp at h
    | ok u => exact finish_ok h
  · rw [big_msta_eq_other src (by simp [hst])] at h
    exact finish_ok h
  · rw [big_msta_eq_other src (by simp [hst])] at h
    exact finish_ok h

theorem big_msta_rank (src : Src) (m : MsfState) :
    m.stream_table.rank ≤ (BigMSF.make_stream_table_available src m).2.stream_table.rank := by
  rcases hst : m.stream_table with ⟨s, ll⟩ | ⟨loc⟩ | ⟨v⟩
  · rw [big_msta_eq_headerOnly src hst]
    rcases hf : BigMSF.find_stream_table src m with ⟨r, m1⟩
    have hr := find_stream_table_rank src m
    rw [hf, hst] at hr
    cases r with
    | error e => exact hr
    | ok u => exact le_trans hr (finish_rank src m1)
  · rw [big_msta_eq_other src (by simp [hst])]
    have hr := finish_rank src m
    rw [hst] at hr
    exact hr
  · rw [big_msta_eq_other src (by simp [hst])]
    have hr := finish_rank src m
    rw [hst] at hr
    exact hr

theorem big_msta_on_available {src : Src} {m : MsfState} {v : Bytes}
    (h : m.stream_table = .available v) :
    BigMSF.make_stream_table_available src m = (.ok (), m) := by
  rw [big_msta_eq_other src (by simp [h])]
  exact finish_on_available h

/-- The `if big then ... else ...` dispatch used inside `msf_look_up_stream`. -/
theorem msta_header (src : Src) (big : Bool) (m : MsfState) :
    ((if big then BigMSF.make_stream_table_available src m
      else SmallMSF.make_stream_table_available src m)).2.header = m.header := by
  cases big
  · show (SmallMSF.make_stream_table_available src m).2.header = m.header
    unfold SmallMSF.make_stream_table_available
    exact finish_header src m
  · show (BigMSF.make_stream_table_available src m).2.header = m.header
    exact big_msta_header src m

theorem msta_rank (src : Src) (big : Bool) (m : MsfState) :
    m.stream_table.rank ≤ ((if big then BigMSF.make_stream_table_available src m
      else SmallMSF.make_stream_table_available src m)).2.stream_table.rank := by
  cases big
  · show m.stream_table.rank ≤ (SmallMSF.make_stream_table_available src m).2.stream_table.rank
    unfold SmallMSF.make_stream_table_available
    exact finish_rank src m
  · exact big_msta_rank src m

theorem msta_ok {src : Src} {big : Bool} {m m1 : MsfState}
    (h : (if big then BigMSF.make_stream_table_available src m
      else SmallMSF.make_stream_table_available src m) = (.ok (), m1)) :
    ∃ w, m1.stream_table = .available w := by
  cases big
  · exact finish_ok (by unfold SmallMSF.make_stream_table_available at h; exact h)
  · exact big_msta_ok h

theorem msta_on_available {src : Src} {m : MsfState} {v : Bytes} (big : Bool)
    (h : m.stream_table = .available v) :
    (if big then BigMSF.make_stream_table_available src m
      else SmallMSF.make_stream_table_available src m) = (.ok (), m) := by
  cases big
  · show SmallMSF.make_stream_table_available src m = (.ok (), m)
    unfold SmallMSF.make_stream_table_available
    exact finish_on_available h
  · exact big_msta_on_available h

theorem lus_state (src : Src) (big : Bool) (m : MsfState) (n : Nat) :
    (msf_look_up_stream src big m n).2 =
      ((if big then BigMSF.make_stream_table_available src m
        else SmallMSF.make_stream_table_available src m)).2 := by
  unfold msf_look_up_stream
  split
  next e m1 heq => rw [heq]
  next u m1 heq =>
    rw [heq]
    split <;> rfl

theorem lus_from_available {src : Src} {big : Bool} {m : MsfState} {v : Bytes} {n : Nat}
    (h : m.stream_table = .available v) :
    msf_look_up_stream src big m n = (look_up_stream_in m.header big v n, m) := by
  unfold msf_look_up_stream
  rw [msta_on_available big h]
  simp [h]

theorem lus_ok {src : Src} {big : Bool} {m : MsfState} {n : Nat} {pl : PageList} {m1 : MsfState}
    (h : msf_look_up_stream src big m n = (.ok pl, m1)) :
    ∃ v, m1.stream_table = .available v ∧ look_up_stream_in m1.header big v n = .ok pl := by
  unfold msf_look_up_stream at h
  split at h
  next e m2 heq => simp at h
  next u m2 heq =>
    split at h
    next v hst =>
      simp only [Prod.mk.injEq] at h
      obtain ⟨hw, hm⟩ := h
      subst hm
      exact ⟨v, hst, hw⟩
    next hne =>
      simp at h

theorem get_state (src : Src) (big : Bool) (m : MsfState) (n : Nat) (l : Option Nat) :
    (msf_get src big m n l).2 = (msf_look_up_stream src big m n).2 := by
  unfold msf_get
  split
  next e m1 heq => rw [heq]
  next pl m1 heq =>
    rw [heq]
    split <;> rfl

theorem get_header (src : Src) (big : Bool) (m : MsfState) (n : Nat) (l : Option Nat) :
    (msf_get src big m n l).2.header = m.header := by
  rw [get_state, lus_state]
  exact msta_header src big m

theorem get_rank (src : Src) (big : Bool) (m : MsfState) (n : Nat) (l : Option Nat) :
    m.stream_table.rank ≤ (msf_get src big m n l).2.stream_table.rank := by
  rw [get_state, lus_state]
  exact msta_rank src big m

theorem get_on_available {src : Src} {big : Bool} {m : MsfState} {v : Bytes}
    (n : Nat) (l : Option Nat) (h : m.stream_table = .available v) :
    (msf_get src big m n l).2 = m := by
  rw [get_state, lus_state, msta_on_available big h]

theorem msf_get_idem {src : Src} {big : Bool} {m : MsfState} {n : Nat} {l : Option Nat}
    {b : Bytes} {m1 : MsfState} (h : msf_get src big m n l = (.ok b, m1)) :
    msf_get src big m1 n l = (.ok b, m1) := by
  unfold msf_get at h
  split at h
  next e m2 heq => simp at h
  next pl m2 heq =>
    split at h
    next e hv => simp at h
    next v hv =>
      simp only [Prod.mk.injEq, Except.ok.injEq] at h
      obtain ⟨hb, hm⟩ := h
      subst hm
      subst hb
      obtain ⟨w, hw, hwalk⟩ := lus_ok heq
      unfold msf_get
      rw [lus_from_available hw]
      simp [hwalk, hv]

/-- Claim C10: `get` never touches the reader's header, whether it succeeds or
fails: `page_size` and `maximum_valid_page_number` keep their construction-time
values; in the modelled state (header plus stream table) the only field `get`
may modify is `stream_table`. -/
theorem C10_get_preserves_header (src : Src) (r : MsfReader) (n : Nat) (l : Option Nat) :
    ((MsfReader.get src r n l).2).header = r.header
    ∧ ((MsfReader.get src r n l).2).header.page_size = r.header.page_size
    ∧ ((MsfReader.get src r n l).2).header.maximum_valid_page_number
        = r.header.maximum_valid_page_number := by
  have hmain : ((MsfReader.get src r n l).2).header = r.header := by
    cases r with
    | big m =>
      rcases hg : BigMSF.get src m n l with ⟨res, m1⟩
      have hh := get_header src true m n l
      unfold BigMSF.get at hg
      rw [hg] at hh
      simp only [MsfReader.get, BigMSF.get, hg, MsfReader.header]
      exact hh
    | small m =>
      rcases hg : SmallMSF.get src m n l with ⟨res, m1⟩
      have hh := get_header src false m n l
      unfold SmallMSF.get at hg
      rw [hg] at hh
      simp only [MsfReader.get, SmallMSF.get, hg, MsfReader.header]
      exact hh
  exact ⟨hmain, by rw [hmain], by rw [hmain]⟩

/-- Claim C6: the stream-table lifecycle only ever advances
(HeaderOnly → TableFound → Available, measured by `rank`) and never regresses;
once Available the state — and with it the cached directory view — is retained
unchanged across `get` calls; and a transition attempt that fails (transport,
parse or page-validation error) leaves the stream table exactly in the state it
held before the attempt: a failed `find_stream_table` and a failed
`TableFound → Available` step change nothing, a failed
`make_stream_table_available` leaves either the original state or the state
produced by its successful `find_stream_table` sub-step. -/
theorem C6_stream_table_lifecycle (src : Src) (big : Bool) (m : MsfState) (n : Nat)
    (l : Option Nat) :
    (m.stream_table.rank ≤ (msf_get src big m n l).2.stream_table.rank)
    ∧ (∀ v, m.stream_table = .available v → (msf_get src big m n l).2 = m)
    ∧ (∀ e m1, BigMSF.find_stream_table src m = (.error e, m1) → m1 = m)
    ∧ (∀ e m1, advance_table_found src m = (.error e, m1) → m1 = m)
    ∧ (∀ e m1, SmallMSF.make_stream_table_available src m = (.error e, m1) → m1 = m)
    ∧ (∀ e m1, BigMSF.make_stream_table_available src m = (.error e, m1) →
        m1 = m ∨ ((BigMSF.find_stream_table src m).1 = .ok ()
          ∧ m1 = (BigMSF.find_stream_table src m).2)) := by
  refine ⟨get_rank src big m n l, ?_, ?_, ?_, ?_, ?_⟩
  · intro v hv
    exact get_on_available n l hv
  · intro e m1 h
    exact find_stream_table_err h
  · intro e m1 h
    exact advance_table_found_err h
  · intro e m1 h
    unfold SmallMSF.make_stream_table_available at h
    exact finish_err h
  · intro e m1 h
    exact big_msta_err h

/-- Witness for C6 at a concrete Available reader: a `get` call leaves the
state untouched. -/
theorem C6_stream_table_lifecycle_witness :
    (msf_get (readFile []) true ⟨⟨256, 15⟩, .available [0, 0, 0, 0]⟩ 0 none).2
      = ⟨⟨256, 15⟩, .available [0, 0, 0, 0]⟩ :=
  (C6_stream_table_lifecycle (readFile []) true ⟨⟨256, 15⟩, .available [0, 0, 0, 0]⟩ 0
    none).2.1 [0, 0, 0, 0] rfl

/-- Claim C9: when `get` succeeds, calling it again with the same stream number
and limit returns a byte-for-byte identical stream (hence of identical length)
and the same reader state: the second call reads the cached Available directory
and performs the same walk. -/
theorem C9_get_idempotent (src : Src) (r : MsfReader) (n : Nat) (l : Option Nat)
    (b : Bytes) (r1 : MsfReader) (h : MsfReader.get src r n l = (.ok b, r1)) :
    MsfReader.get src r1 n l = (.ok b, r1) := by
  cases r with
  | big m =>
    rcases hg : BigMSF.get src m n l with ⟨res, m1⟩
    rw [MsfReader.get, hg] at h
    simp only [Prod.mk.injEq] at h
    obtain ⟨hres, hr1⟩ := h
    subst hres
    subst hr1
    unfold BigMSF.get at hg
    have h2 := msf_get_idem hg
    simp [MsfReader.get, BigMSF.get, h2]
  | small m =>
    rcases hg : SmallMSF.get src m n l with ⟨res, m1⟩
    rw [MsfReader.get, hg] at h
    simp only [Prod.mk.injEq] at h
    obtain ⟨hres, hr1⟩ := h
    subst hres
    subst hr1
    unfold SmallMSF.get at hg
    have h2 := msf_get_idem hg
    simp [MsfReader.get, SmallMSF.get, h2]

set_option maxRecDepth 8000 in
/-- Witness for C9: a successful `get` on a concrete Big reader repeats with the
identical stream bytes and state. -/
theorem C9_get_idempotent_witness :
    MsfReader.get (readFile exTinyFile)
        (.big ⟨⟨256, 1⟩, .available (encodeDir true exTinyDescs)⟩) 0 none
      = (.ok [104, 105], .big ⟨⟨256, 1⟩, .available (encodeDir true exTinyDescs)⟩) :=
  C9_get_idempotent (readFile exTinyFile)
    (.big ⟨⟨256, 1⟩, .available (encodeDir true exTinyDescs)⟩) 0 none [104, 105]
    (.big ⟨⟨256, 1⟩, .available (encodeDir true exTinyDescs)⟩) (by decide)

/-- The in-memory transport honours the length contract: an `Ok` view has
exactly the total requested length. -/
theorem readFile_contract (file : Bytes) :
    ∀ sl v, readFile file sl = .ok v → v.length = sumLens sl := by
  intro sl v h
  unfold readFile at h
  split at h
  next hall =>
    simp only [Except.ok.injEq] at h
    subst h
    simp only [List.all_eq_true, decide_eq_true_eq] at hall
    induction sl with
    | nil => rfl
    | cons s rest ih =>
      have hs := hall s (by simp)
      have hrest : ∀ x ∈ rest, x.1 + x.2 ≤ file.length :=
        fun x hx => hall x (List.mem_cons_of_mem s hx)
      simp only [List.map_cons, List.flatten_cons, List.length_append, sumLens,
        List.sum_cons] at ih ⊢
      have hlen : (sliceOf file s).length = s.2 := by
        simp only [sliceOf, List.length_take, List.length_drop]
        omega
      rw [hlen]
      have := ih hrest
      simp only [sumLens] at this
      omega
  next hall => simp at h

/-- Claim C8: under the transport contract (an `Ok` view has exactly the total
requested length) and the PageList invariant (the source-slice lengths sum to
the logical length — which every PageList built by the readers satisfies, first
conjunct), the `assert_eq!` in the internal `view` helper always holds, so its
abort branch is unreachable. -/
theorem C8_view_assert_holds :
    (∀ pl : PageList, pl.Inv → sumLens pl.source_slices = pl.len)
    ∧ (∀ (src : Src) (pl : PageList),
        (∀ sl v, src sl = .ok v → v.length = sumLens sl) →
        sumLens pl.source_slices = pl.len →
        view src pl ≠ .error .assertViewLen) := by
  constructor
  · exact fun pl h => sum_source_slices h
  · intro src pl hcontract hsum
    unfold view
    cases hres : src pl.source_slices with
    | error k => simp
    | ok v =>
      have hlen := hcontract _ _ hres
      show (if List.length v = pl.len then (Except.ok v : Except Error Bytes)
        else Except.error Error.assertViewLen) ≠ Except.error Error.assertViewLen
      rw [hlen, hsum]
      simp

/-- Witness for C8: the in-memory transport and a concrete PageList; the view
succeeds rather than hitting the assertion. -/
theorem C8_view_assert_holds_witness :
    view (readFile (zeros 256)) ((PageList.new 256).push 0) ≠ .error .assertViewLen :=
  C8_view_assert_holds.2 (readFile (zeros 256)) ((PageList.new 256).push 0)
    (readFile_contract (zeros 256)) (by decide)

/-- Claim C4: `open_msf` views the first 4096 bytes; an unexpected-end-of-file
transport error there is rewritten to `UnrecognizedFileFormat` while any other
transport error propagates unchanged; on success the Big magic is compared
first, then the Small magic, the first match selecting the reader, and neither
matching yields `UnrecognizedFileFormat`. -/
theorem C4_open_msf_dispatch (src : Src) :
    (src [(0, 4096)] = .error .unexpectedEof →
      open_msf src = .error .unrecognizedFileFormat)
    ∧ (∀ c, src [(0, 4096)] = .error (.other c) →
      open_msf src = .error (.ioError (.other c)))
    ∧ (∀ hv, src [(0, 4096)] = .ok hv → hv.length = 4096 →
        (header_matches hv bigMagic = true →
          open_msf src = (match BigMSF.new hv with
            | .error e => .error e
            | .ok m => .ok (.big m)))
        ∧ (header_matches hv bigMagic = false → header_matches hv smallMagic = true →
          open_msf src = (match SmallMSF.new hv with
            | .error e => .error e
            | .ok m => .ok (.small m)))
        ∧ (header_matches hv bigMagic = false → header_matches hv smallMagic = false →
          open_msf src = .error .unrecognizedFileFormat)) := by
  have hs : ((PageList.new 4096).push 0).source_slices = [(0, 4096)] := rfl
  refine ⟨?_, ?_, ?_⟩
  · intro h
    have hview : view src ((PageList.new 4096).push 0) = .error (.ioError .unexpectedEof) := by
      unfold view
      rw [hs, h]
    unfold open_msf
    rw [hview]
  · intro c h
    have hview : view src ((PageList.new 4096).push 0) = .error (.ioError (.other c)) := by
      unfold view
      rw [hs, h]
    unfold open_msf
    rw [hview]
  · intro hv hok hlen
    have hview : view src ((PageList.new 4096).push 0) = .ok hv := by
      unfold view
      rw [hs, hok]
      simp [PageList.len, PageList.push, PageList.new, hlen]
    refine ⟨?_, ?_, ?_⟩
    · intro hbig
      unfold open_msf
      rw [hview]
      simp only [hbig, if_true]
    · intro hbig hsmall
      unfold open_msf
      rw [hview]
      simp only [hbig, hsmall, Bool.false_eq_true, if_false, if_true]
    · intro hbig hsmall
      unfold open_msf
      rw [hview]
      simp only [hbig, hsmall, Bool.false_eq_true, if_false]

/-- Witness for C4: a pure-EOF transport makes `open_msf` report
`UnrecognizedFileFormat`. -/
theorem C4_open_msf_dispatch_witness :
    open_msf eofSrc = .error .unrecognizedFileFormat :=
  (C4_open_msf_dispatch eofSrc).1 rfl

/-! ### Error classification and the StreamNotFound characterization (C2) -/

theorem validate_err {h : Header} {n : Nat} {e : Error}
    (he : h.validate_page_number n = .error e) : e = .pageReferenceOutOfRange n := by
  unfold Header.validate_page_number at he
  split at he
  · simp only [Except.error.injEq] at he
    exact he.symm
  · simp at he

theorem read_pages_err {hdr : Header} {w cnt : Nat} {pl : PageList} {buf : Bytes} {e : Error}
    (h : read_pages hdr w cnt pl buf = .error e) :
    e = .unexpectedEof ∨ ∃ p, e = .pageReferenceOutOfRange p := by
  induction cnt generalizing pl buf with
  | zero => simp [read_pages] at h
  | succ k ih =>
    unfold read_pages at h
    split at h
    next e2 heq =>
      simp only [Except.error.injEq] at h
      subst h
      exact Or.inl (parse_le_err heq)
    next v buf2 heq =>
      split at h
      next e2 hv =>
        simp only [Except.error.injEq] at h
        subst h
        exact Or.inr ⟨v, validate_err hv⟩
      next p hv =>
        exact ih h

theorem read_page_list_err {hdr : Header} {w size : Nat} {buf : Bytes} {e : Error}
    (h : read_page_list hdr w size buf = .error e) :
    e = .unexpectedEof ∨ ∃ p, e = .pageReferenceOutOfRange p := by
  unfold read_page_list at h
  split at h
  next e2 heq =>
    simp only [Except.error.injEq] at h
    subst h
    exact read_pages_err heq
  next pl buf2 heq =>
    simp at h

theorem take_bytes_of_le {n : Nat} {buf : Bytes} (h : n ≤ buf.length) :
    take_bytes n buf = .ok (buf.drop n) := by
  unfold take_bytes
  rw [if_pos h]

theorem view_err {src : Src} {pl : PageList} {e : Error} (h : view src pl = .error e) :
    (∃ k, e = .ioError k) ∨ e = .assertViewLen := by
  unfold view at h
  split at h
  next k heq =>
    simp only [Except.error.injEq] at h
    exact Or.inl ⟨k, h.symm⟩
  next v heq =>
    split at h
    · simp at h
    · simp only [Except.error.injEq] at h
      exact Or.inr h.symm

theorem skip_step (hdr : Header) (rsv : Bool) (k : Nat) {buf : Bytes} {bytes : Nat}
    {buf2 : Bytes} (acc : Nat) (h : read_stream_size (!rsv) buf = .ok (bytes, buf2)) :
    skip_stream_sizes hdr rsv (k + 1) buf acc =
      if bytes = 0xFFFFFFFF then skip_stream_sizes hdr rsv k buf2 acc
      else skip_stream_sizes hdr rsv k buf2 (acc + hdr.pages_needed_to_store bytes) := by
  conv_lhs => unfold skip_stream_sizes
  rw [h]

theorem read_stream_size_big {buf : Bytes} (h : 4 ≤ buf.length) :
    read_stream_size true buf = .ok (leVal 4 buf, buf.drop 4) := by
  unfold read_stream_size
  rw [parse_le_of_le_length h]
  rfl

theorem read_stream_size_small {buf : Bytes} (h : 8 ≤ buf.length) :
    read_stream_size false buf = .ok (leVal 4 buf, buf.drop 8) := by
  have h4 : 4 ≤ buf.length := by omega
  have h44 : 4 ≤ (buf.drop 4).length := by
    simp only [List.length_drop]
    omega
  unfold read_stream_size
  rw [parse_le_of_le_length h4]
  show (match (parse_le 4 (buf.drop 4)).map Prod.snd with
        | .error e => (.error e : Except Error (Nat × Bytes))
        | .ok buf2 => .ok (leVal 4 buf, buf2)) = .ok (leVal 4 buf, buf.drop 8)
  rw [parse_le_of_le_length h44]
  show Except.ok (leVal 4 buf, (buf.drop 4).drop 4) = .ok (leVal 4 buf, buf.drop 8)
  rw [List.drop_drop]

theorem skip_sizes_drop (hdr : Header) (rsv : Bool) :
    ∀ (k : Nat) (buf : Bytes) (acc : Nat),
      (if rsv then 8 else 4) * k ≤ buf.length →
      ∃ acc2, skip_stream_sizes hdr rsv k buf acc
        = .ok (acc2, buf.drop ((if rsv then 8 else 4) * k)) := by
  intro k
  induction k with
  | zero =>
    intro buf acc _
    exact ⟨acc, by simp [skip_stream_sizes]⟩
  | succ k ih =>
    intro buf acc hlen
    cases rsv with
    | false =>
      simp only [Bool.false_eq_true, if_false] at hlen ⊢
      have h4 : 4 ≤ buf.length := by omega
      have hrss : read_stream_size (!false) buf = .ok (leVal 4 buf, buf.drop 4) := by
        simpa using read_stream_size_big h4
      rw [skip_step hdr false k acc hrss]
      have hb : (if false = true then 8 else 4) * k ≤ (buf.drop 4).length := by
        simp only [Bool.false_eq_true, if_false, List.length_drop]
        omega
      have hidx : 4 + 4 * k = 4 * (k + 1) := by omega
      by_cases hsent : leVal 4 buf = 0xFFFFFFFF
      · rw [if_pos hsent]
        obtain ⟨acc2, hrec⟩ := ih (buf.drop 4) acc hb
        simp only [Bool.false_eq_true, if_false] at hrec
        refine ⟨acc2, ?_⟩
        rw [hrec, List.drop_drop, hidx]
      · rw [if_neg hsent]
        obtain ⟨acc2, hrec⟩ := ih (buf.drop 4) (acc + hdr.pages_needed_to_store (leVal 4 buf)) hb
        simp only [Bool.false_eq_true, if_false] at hrec
        refine ⟨acc2, ?_⟩
        rw [hrec, List.drop_drop, hidx]
    | true =>
      simp only [if_true] at hlen ⊢
      have h8 : 8 ≤ buf.length := by omega
      have hrss : read_stream_size (!true) buf = .ok (leVal 4 buf, buf.drop 8) := by
        simpa using read_stream_size_small h8
      rw [skip_step hdr true k acc hrss]
      have hb : (if true = true then 8 else 4) * k ≤ (buf.drop 8).length := by
        simp only [if_true, List.length_drop]
        omega
      have hidx : 8 + 8 * k = 8 * (k + 1) := by omega
      by_cases hsent : leVal 4 buf = 0xFFFFFFFF
      · rw [if_pos hsent]
        obtain ⟨acc2, hrec⟩ := ih (buf.drop 8) acc hb
        simp only [if_true] at hrec
        refine ⟨acc2, ?_⟩
        rw [hrec, List.drop_drop, hidx]
      · rw [if_neg hsent]
        obtain ⟨acc2, hrec⟩ := ih (buf.drop 8) (acc + hdr.pages_needed_to_store (leVal 4 buf)) hb
        simp only [if_true] at hrec
        refine ⟨acc2, ?_⟩
        rw [hrec, List.drop_drop, hidx]

theorem look_up_tail_no_snf {hdr : Header} {big : Bool}
    {sc sn skip size : Nat} {buf : Bytes} {k : Nat}
    (h : look_up_tail hdr big sc sn skip size buf = .error (.streamNotFound k)) : False := by
  unfold look_up_tail at h
  split at h
  next e ht1 =>
    simp only [Except.error.injEq] at h
    have heof := take_bytes_err ht1
    rw [h] at heof
    simp at heof
  next buf2 ht1 =>
    split at h
    next e ht2 =>
      simp only [Except.error.injEq] at h
      have heof := take_bytes_err ht2
      rw [h] at heof
      simp at heof
    next buf3 ht2 =>
      split at h
      next e hr =>
        simp only [Except.error.injEq] at h
        rcases read_page_list_err hr with h1 | ⟨p, h2⟩
        · rw [h] at h1
          simp at h1
        · rw [h] at h2
          simp at h2
      next pl rest2 hr =>
        simp at h

theorem luc_step1 {hdr : Header} {big : Bool} {c n : Nat} {buf : Bytes}
    {skip : Nat} {buf2 : Bytes} (hn : ¬ c ≤ n)
    (hskip : skip_stream_sizes hdr (!big) n buf 0 = .ok (skip, buf2)) :
    look_up_with_count hdr big c n buf =
      match read_stream_size big buf2 with
      | .error e => .error e
      | .ok (bytes, buf3) =>
        if bytes = 0xFFFFFFFF then .error (.streamNotFound n)
        else look_up_tail hdr big c n skip bytes buf3 := by
  unfold look_up_with_count
  rw [if_neg hn, hskip]

theorem walk_snf_iff {hdr : Header} {big : Bool} {d : Bytes} {n count : Nat} {rest : Bytes}
    (hc : parse_stream_count big d = .ok (count, rest))
    (hlen : (if big then 4 else 8) * count ≤ rest.length) :
    (look_up_stream_in hdr big d n = .error (.streamNotFound n)
      ↔ (count ≤ n ∨ stream_size_at big rest n = 0xFFFFFFFF)) := by
  have h1 : look_up_stream_in hdr big d n = look_up_with_count hdr big count n rest := by
    unfold look_up_stream_in
    rw [hc]
  rw [h1]
  by_cases hn : count ≤ n
  · unfold look_up_with_count
    simp [hn]
  · have hnlt : n < count := by omega
    cases big with
    | true =>
      simp only [if_true] at hlen
      have hsklen : (if false = true then 8 else 4) * n ≤ rest.length := by
        simp only [Bool.false_eq_true, if_false]
        have : 4 * n ≤ 4 * count := by omega
        omega
      obtain ⟨acc2, hskip⟩ := skip_sizes_drop hdr false n rest 0 hsklen
      have hskip2 : skip_stream_sizes hdr (!true) n rest 0 = .ok (acc2, rest.drop (4 * n)) := by
        simpa using hskip
      rw [luc_step1 hn hskip2]
      have h4n : 4 ≤ (rest.drop (4 * n)).length := by
        simp only [List.length_drop]
        omega
      rw [read_stream_size_big h4n]
      show (if leVal 4 (rest.drop (4 * n)) = 0xFFFFFFFF
            then (.error (.streamNotFound n) : Except Error PageList)
            else look_up_tail hdr true count n acc2 (leVal 4 (rest.drop (4 * n)))
              ((rest.drop (4 * n)).drop 4))
          = .error (.streamNotFound n)
        ↔ (count ≤ n ∨ stream_size_at true rest n = 0xFFFFFFFF)
      by_cases hsent : leVal 4 (rest.drop (4 * n)) = 0xFFFFFFFF
      · rw [if_pos hsent]
        simp [stream_size_at, hsent]
      · rw [if_neg hsent]
        constructor
        · intro hcontra
          exact (look_up_tail_no_snf hcontra).elim
        · intro hcontra
          rcases hcontra with h2 | h2
          · exact absurd h2 hn
          · exact absurd (by simpa [stream_size_at] using h2) hsent
    | false =>
      simp only [Bool.false_eq_true, if_false] at hlen
      have hsklen : (if true = true then 8 else 4) * n ≤ rest.length := by
        simp only [if_true]
        have : 8 * n ≤ 8 * count := by omega
        omega
      obtain ⟨acc2, hskip⟩ := skip_sizes_drop hdr true n rest 0 hsklen
      have hskip2 : skip_stream_sizes hdr (!false) n rest 0 = .ok (acc2, rest.drop (8 * n)) := by
        simpa using hskip
      rw [luc_step1 hn hskip2]
      have h8n : 8 ≤ (rest.drop (8 * n)).length := by
        simp only [List.length_drop]
        omega
      rw [read_stream_size_small h8n]
      show (if leVal 4 (rest.drop (8 * n)) = 0xFFFFFFFF
            then (.error (.streamNotFound n) : Except Error PageList)
            else look_up_tail hdr false count n acc2 (leVal 4 (rest.drop (8 * n)))
              ((rest.drop (8 * n)).drop 8))
          = .error (.streamNotFound n)
        ↔ (count ≤ n ∨ stream_size_at false rest n = 0xFFFFFFFF)
      by_cases hsent : leVal 4 (rest.drop (8 * n)) = 0xFFFFFFFF
      · rw [if_pos hsent]
        simp [stream_size_at, hsent]
      · rw [if_neg hsent]
        constructor
        · intro hcontra
          exact (look_up_tail_no_snf hcontra).elim
        · intro hcontra
          rcases hcontra with h2 | h2
          · exact absurd h2 hn
          · exact absurd (by simpa [stream_size_at] using h2) hsent

theorem get_snf_iff_walk {src : Src} {big : Bool} {hdr : Header} {d : Bytes}
    {n : Nat} {l : Option Nat} :
    ((msf_get src big ⟨hdr, .available d⟩ n l).1 = .error (.streamNotFound n)
      ↔ look_up_stream_in hdr big d n = .error (.streamNotFound n)) := by
  unfold msf_get
  rw [lus_from_available (show (MsfState.mk hdr (.available d)).stream_table = .available d
    from rfl)]
  cases hw : look_up_stream_in hdr big d n with
  | error e => simp [hw]
  | ok pl =>
    simp only [hw]
    constructor
    · intro hc
      cases hv : view src (apply_limit pl l) with
      | error e =>
        simp only [hv] at hc
        simp only [Except.error.injEq] at hc
        rcases view_err hv with ⟨k, hk⟩ | hk <;> rw [hc] at hk <;> simp at hk
      | ok v =>
        simp only [hv] at hc
        simp at hc
    · intro hc
      simp at hc

/-- Claim C2: for a reader (Big or Small, selected by the `big` flag) whose
directory is available and declares `count` streams (with all `count` size
entries present in the view), `get(n, limit)` returns
`Err(StreamNotFound(n))` exactly when `n ≥ count` or the directory records the
sentinel size `0xFFFF_FFFF` for stream `n`; in every other case the lookup
never produces `StreamNotFound`. -/
theorem C2_stream_not_found_iff (src : Src) (big : Bool) (hdr : Header) (d : Bytes)
    (n : Nat) (limit : Option Nat) (count : Nat) (rest : Bytes)
    (hc : parse_stream_count big d = .ok (count, rest))
    (hlen : (if big then 4 else 8) * count ≤ rest.length) :
    ((msf_get src big ⟨hdr, .available d⟩ n limit).1 = .error (.streamNotFound n)
      ↔ (count ≤ n ∨ stream_size_at big rest n = 0xFFFFFFFF)) :=
  get_snf_iff_walk.trans (walk_snf_iff hc hlen)

/-- Witness for C2: a directory declaring one absent stream makes `get(0)` fail
with `StreamNotFound(0)`. -/
theorem C2_stream_not_found_iff_witness :
    (msf_get (readFile []) true ⟨⟨256, 1⟩, .available (encodeDir true [none])⟩ 0 none).1
      = .error (.streamNotFound 0) :=
  (C2_stream_not_found_iff (readFile []) true ⟨256, 1⟩ (encodeDir true [none]) 0 none 1
    (leBytes 4 0xFFFFFFFF) (by decide) (by decide)).mpr (Or.inr (by decide))

/-! ### The byte-limit lemma (C5): gathering a truncated PageList yields a
prefix of the full gather. -/

theorem ceil_tail {ps len : Nat} (hps : 0 < ps) (hlen : 0 < len) {k : Nat}
    (h : k + 1 = (len + ps - 1) / ps) : k = (len - ps + ps - 1) / ps := by
  rw [ceil_succ hps hlen] at h
  rcases le_or_lt len ps with hle | hlt
  · have hz : len - ps = 0 := by omega
    rw [hz, ceil_zero hps]
    have hsmall : (len - 1) / ps = 0 := Nat.div_eq_of_lt (by omega)
    omega
  · have h1 : len - ps + ps - 1 = (len - ps - 1) + ps := by omega
    have h2 : len - 1 = (len - ps - 1) + ps := by omega
    rw [h1, Nat.add_div_right _ hps]
    rw [h2, Nat.add_div_right _ hps] at h
    omega

theorem gather_take (file : Bytes) {ps : Nat} (hps : 0 < ps) :
    ∀ (pages : List Nat) (len nn : Nat), nn ≤ len →
      pages.length = (len + ps - 1) / ps →
      (∀ s ∈ slicesFrom ps pages len, s.1 + s.2 ≤ file.length) →
      ((slicesFrom ps (pages.take ((nn + ps - 1) / ps)) nn).map (sliceOf file)).flatten
        = (((slicesFrom ps pages len).map (sliceOf file)).flatten).take nn
      ∧ ∀ s ∈ slicesFrom ps (pages.take ((nn + ps - 1) / ps)) nn,
          s.1 + s.2 ≤ file.length := by
  intro pages
  induction pages with
  | nil =>
    intro len nn hle hlen hb
    have hlen0 : len = 0 := (ceil_eq_zero_iff hps).mp hlen.symm
    have hnn : nn = 0 := by omega
    subst hnn
    simp [slicesFrom]
  | cons p rest ih =>
    intro len nn hle hlen hb
    by_cases hnn0 : nn = 0
    · subst hnn0
      rw [ceil_zero hps]
      simp [slicesFrom]
    · have hnpos : 0 < nn := Nat.pos_of_ne_zero hnn0
      have hlenpos : 0 < len := lt_of_lt_of_le hnpos hle
      have hb1 : p * ps + min ps len ≤ file.length :=
        hb (p * ps, min ps len) (by simp [slicesFrom])
      have hfirstlen : (sliceOf file (p * ps, min ps len)).length = min ps len := by
        simp only [sliceOf, List.length_take, List.length_drop]
        omega
      rw [ceil_succ hps hnpos]
      simp only [List.length_cons] at hlen
      have hrestlen : rest.length = (len - ps + ps - 1) / ps := ceil_tail hps hlenpos hlen
      have hrest_b : ∀ s ∈ slicesFrom ps rest (len - ps), s.1 + s.2 ≤ file.length :=
        fun s hs => hb s (by simp [slicesFrom, hs])
      by_cases hcase : nn ≤ ps
      · have h0 : (nn - 1) / ps = 0 := Nat.div_eq_of_lt (by omega)
        rw [h0]
        have htake1 : (p :: rest).take (0 + 1) = [p] := by simp
        rw [htake1]
        have hminnn : min ps nn = nn := by omega
        have hminle : nn ≤ min ps len := by omega
        constructor
        · simp only [slicesFrom, List.map_cons, List.map_nil, List.flatten_cons,
            List.flatten_nil, List.append_nil, hminnn]
          rw [List.take_append_eq_append_take]
          have hz : nn - (sliceOf file (p * ps, min ps len)).length = 0 := by
            rw [hfirstlen]
            omega
          rw [hz, List.take_zero, List.append_nil]
          simp only [sliceOf, List.take_take]
          have hm2 : min nn (min ps len) = nn := by omega
          rw [hm2]
        · intro s hs
          simp only [slicesFrom, hminnn, List.mem_cons, List.not_mem_nil, or_false] at hs
          subst hs
          simp only []
          omega
      · have hps_lt : ps < nn := by omega
        have harith : (nn - 1) / ps = (nn - ps - 1) / ps + 1 := by
          have h2 : nn - 1 = (nn - ps - 1) + ps := by omega
          rw [h2, Nat.add_div_right _ hps]
        have hceil2 : (nn - ps + ps - 1) / ps = (nn - ps - 1) / ps + 1 :=
          ceil_succ hps (by omega)
        obtain ⟨ihEq, ihB⟩ := ih (len - ps) (nn - ps) (by omega) hrestlen hrest_b
        rw [harith, List.take_succ_cons]
        have hminps : min ps nn = ps := by omega
        have hminlen : min ps len = ps := by omega
        constructor
        · simp only [slicesFrom, List.map_cons, List.flatten_cons, hminps, hminlen]
          rw [List.take_append_eq_append_take]
          rw [hminlen] at hb1
          have hlen1 : (sliceOf file (p * ps, ps)).length = ps := by
            simp only [sliceOf, List.length_take, List.length_drop]
            omega
          have htfirst : (sliceOf file (p * ps, ps)).take nn = sliceOf file (p * ps, ps) := by
            apply List.take_of_length_le
            omega
          rw [htfirst, hlen1]
          congr 1
          rw [← hceil2]
          exact ihEq
        · intro s hs
          simp only [slicesFrom, hminps, List.mem_cons] at hs
          rcases hs with hs | hs
          · subst hs
            simp only []
            omega
          · apply ihB
            rw [← hceil2] at hs
            exact hs

theorem read_pages_Inv {hdr : Header} {w cnt : Nat} {pl : PageList} {buf : Bytes}
    {pl2 : PageList} {rest : Bytes} (hInv : pl.Inv)
    (h : read_pages hdr w cnt pl buf = .ok (pl2, rest)) : pl2.Inv := by
  induction cnt generalizing pl buf with
  | zero =>
    unfold read_pages at h
    simp only [Except.ok.injEq, Prod.mk.injEq] at h
    rw [← h.1]
    exact hInv
  | succ k ih =>
    unfold read_pages at h
    split at h
    next e heq => simp at h
    next v buf2 heq =>
      split at h
      next e hv => simp at h
      next p hv => exact ih (Inv_push hInv) h

theorem read_page_list_Inv {hdr : Header} {w size : Nat} {buf : Bytes}
    {pl2 : PageList} {rest : Bytes} (hps : 0 < hdr.page_size)
    (h : read_page_list hdr w size buf = .ok (pl2, rest)) : pl2.Inv := by
  unfold read_page_list at h
  split at h
  next e heq => simp at h
  next pl buf2 heq =>
    simp only [Except.ok.injEq, Prod.mk.injEq] at h
    rw [← h.1]
    exact Inv_truncate _ (read_pages_Inv (Inv_new hps) heq)

theorem look_up_tail_Inv {hdr : Header} {big : Bool} {sc sn skip size : Nat}
    {buf : Bytes} {pl : PageList} (hps : 0 < hdr.page_size)
    (h : look_up_tail hdr big sc sn skip size buf = .ok pl) : pl.Inv := by
  unfold look_up_tail at h
  split at h
  next e ht1 => simp at h
  next buf2 ht1 =>
    split at h
    next e ht2 => simp at h
    next buf3 ht2 =>
      split at h
      next e hr => simp at h
      next pl2 rest2 hr =>
        simp only [Except.ok.injEq] at h
        rw [← h]
        exact read_page_list_Inv hps hr

theorem look_up_stream_in_Inv {hdr : Header} {big : Bool} {d : Bytes} {n : Nat}
    {pl : PageList} (hps : 0 < hdr.page_size)
    (h : look_up_stream_in hdr big d n = .ok pl) : pl.Inv := by
  unfold look_up_stream_in at h
  split at h
  next e heq => simp at h
  next c buf heq =>
    unfold look_up_with_count at h
    split at h
    · simp at h
    · split at h
      next e hskip => simp at h
      next skip buf2 hskip =>
        split at h
        next e hsize => simp at h
        next bytes buf3 hsize =>
          split at h
          · simp at h
          · exact look_up_tail_Inv hps h

theorem view_readFile_of {file : Bytes} {pl : PageList} {g : Bytes}
    (hbounds : ∀ s ∈ pl.source_slices, s.1 + s.2 ≤ file.length)
    (hg : ((pl.source_slices).map (sliceOf file)).flatten = g)
    (hlen : g.length = pl.len) :
    view (readFile file) pl = .ok g := by
  unfold view readFile
  have hcond : (pl.source_slices.all fun s => s.1 + s.2 ≤ file.length) = true :=
    List.all_eq_true.mpr fun s hs => by
      simp only [decide_eq_true_eq]
      exact hbounds s hs
  rw [if_pos hcond]
  show (if (((pl.source_slices).map (sliceOf file)).flatten).length = pl.len
        then Except.ok (((pl.source_slices).map (sliceOf file)).flatten)
        else (Except.error Error.assertViewLen : Except Error Bytes)) = .ok g
  rw [hg, if_pos hlen]

theorem view_readFile_ok {file : Bytes} {pl : PageList} {b : Bytes}
    (h : view (readFile file) pl = .ok b) :
    (∀ s ∈ pl.source_slices, s.1 + s.2 ≤ file.length)
    ∧ ((pl.source_slices).map (sliceOf file)).flatten = b ∧ b.length = pl.len := by
  unfold view at h
  split at h
  next k heq => simp at h
  next v heq =>
    split at h
    next hvl =>
      simp only [Except.ok.injEq] at h
      subst h
      unfold readFile at heq
      split at heq
      next hall =>
        simp only [Except.ok.injEq] at heq
        simp only [List.all_eq_true, decide_eq_true_eq] at hall
        exact ⟨hall, heq, heq ▸ hvl⟩
      next hall => simp at heq
    next hvl => simp at h

theorem view_truncate {file : Bytes} {pl : PageList} {b : Bytes} (hInv : pl.Inv)
    (h : view (readFile file) pl = .ok b) (L : Nat) :
    view (readFile file) (pl.truncate L) = .ok (b.take L) := by
  obtain ⟨hbounds, hb, hblen⟩ := view_readFile_ok h
  obtain ⟨hps, hcnt⟩ := hInv
  obtain ⟨hEq, hB⟩ := gather_take file hps pl.pages pl.length (min pl.length L)
    (Nat.min_le_left _ _) hcnt hbounds
  have hlenb : b.length = pl.length := hblen
  have hslices : (pl.truncate L).source_slices
      = slicesFrom pl.page_size
          (pl.pages.take ((min pl.length L + pl.page_size - 1) / pl.page_size))
          (min pl.length L) := rfl
  have htake : b.take (min pl.length L) = b.take L := by
    rcases le_or_lt L pl.length with h1 | h1
    · rw [min_eq_right h1]
    · rw [min_eq_left (le_of_lt h1)]
      rw [List.take_of_length_le (by omega), List.take_of_length_le (by omega)]
  apply view_readFile_of
  · rw [hslices]
    exact hB
  · rw [hslices, hEq]
    have hb2 : (List.map (sliceOf file) (slicesFrom pl.page_size pl.pages pl.length)).flatten
        = b := hb
    rw [hb2, htake]
  · have htl : (pl.truncate L).len = min pl.length L := rfl
    rw [htl, List.length_take]
    omega

theorem msf_get_limit {file : Bytes} {big : Bool} {m : MsfState} {n : Nat} (L : Nat)
    {b : Bytes} {m1 : MsfState} (hps : 0 < m.header.page_size)
    (h : msf_get (readFile file) big m n none = (.ok b, m1)) :
    msf_get (readFile file) big m n (some L) = (.ok (b.take L), m1) := by
  unfold msf_get at h ⊢
  split at h
  next e m2 heq => simp at h
  next pl m2 heq =>
    split at h
    next e hv => simp at h
    next v hv =>
      simp only [Prod.mk.injEq, Except.ok.injEq] at h
      obtain ⟨hb, hm⟩ := h
      subst hb
      subst hm
      have hhdr : m2.header = m.header := by
        have h1 := lus_state (readFile file) big m n
        rw [heq] at h1
        have h2 := msta_header (readFile file) big m
        rw [← h1] at h2
        exact h2
      obtain ⟨w, hw, hwalk⟩ := lus_ok heq
      have hInv : pl.Inv := look_up_stream_in_Inv (by rw [hhdr]; exact hps) hwalk
      have hview2 := view_truncate hInv
        (show view (readFile file) pl = .ok v by simpa [apply_limit] using hv) L
      have hap : apply_limit pl (some L) = pl.truncate L := rfl
      rw [hap, hview2]

/-- Claim C5: on the in-memory transport, if `get(i, None)` succeeds with bytes
`b`, then `get(i, Some(L))` succeeds with exactly the prefix `b.take L` — of
length `min(L, |b|)` — and the same reader state; the limit acts by truncating
the stream's PageList before the source view is materialized. -/
theorem C5_get_with_limit (file : Bytes) (r : MsfReader) (n : Nat) (L : Nat)
    (b : Bytes) (r1 : MsfReader)
    (hps : 0 < (MsfReader.header r).page_size)
    (h : MsfReader.get (readFile file) r n none = (.ok b, r1)) :
    MsfReader.get (readFile file) r n (some L) = (.ok (b.take L), r1)
    ∧ (b.take L).length = min L b.length := by
  refine ⟨?_, List.length_take L b⟩
  cases r with
  | big m =>
    rcases hg : BigMSF.get (readFile file) m n none with ⟨res, m1⟩
    rw [MsfReader.get, hg] at h
    simp only [Prod.mk.injEq] at h
    obtain ⟨hres, hr1⟩ := h
    subst hres
    subst hr1
    unfold BigMSF.get at hg
    have h2 := msf_get_limit L hps hg
    simp [MsfReader.get, BigMSF.get, h2]
  | small m =>
    rcases hg : SmallMSF.get (readFile file) m n none with ⟨res, m1⟩
    rw [MsfReader.get, hg] at h
    simp only [Prod.mk.injEq] at h
    obtain ⟨hres, hr1⟩ := h
    subst hres
    subst hr1
    unfold SmallMSF.get at hg
    have h2 := msf_get_limit L hps hg
    simp [MsfReader.get, SmallMSF.get, h2]

set_option maxRecDepth 8000 in
/-- Witness for C5: limiting the tiny example stream to one byte returns the
one-byte prefix. -/
theorem C5_get_with_limit_witness :
    MsfReader.get (readFile exTinyFile)
        (.big ⟨⟨256, 1⟩, .available (encodeDir true exTinyDescs)⟩) 0 (some 1)
      = (.ok ([104, 105].take 1), .big ⟨⟨256, 1⟩, .available (encodeDir true exTinyDescs)⟩)
    ∧ (([104, 105] : Bytes).take 1).length = min 1 ([104, 105] : Bytes).length :=
  C5_get_with_limit exTinyFile
    (.big ⟨⟨256, 1⟩, .available (encodeDir true exTinyDescs)⟩) 0 1 [104, 105]
    (.big ⟨⟨256, 1⟩, .available (encodeDir true exTinyDescs)⟩) (by decide) (by decide)

/-! ### Big construction and directory resolution (C3) -/

theorem take_field_of {n : Nat} (a b : Bytes) (h : a.length = n) :
    take_field n (a ++ b) = .ok (a, b) := by
  subst h
  exact take_field_append a b

theorem leBytes_flatten_length (w : Nat) (l : List Nat) :
    ((l.map (leBytes w)).flatten).length = w * l.length := by
  induction l with
  | nil => simp
  | cons p rest ih =>
    simp only [List.map_cons, List.flatten_cons, List.length_append, leBytes_length, ih,
      List.length_cons]
    ring

theorem big_new_spec (psz fpm pu D rsv : Nat) (lll : List Nat) (pad : Bytes)
    (hpsz : is_power_of_two psz = true) (hlo : 0x100 ≤ psz) (hhi : psz ≤ 128 * 0x10000)
    (hfpm : fpm < 256 ^ 4) (hpu : pu < 256 ^ 4) (hD : D < 256 ^ 4) (hrsv : rsv < 256 ^ 4)
    (hlll : lll.length = Header.pages_needed_to_store ⟨psz, pu⟩
        (Header.pages_needed_to_store ⟨psz, pu⟩ D * 4))
    (hv : ∀ p ∈ lll, ¬(p = 0 ∨ pu < p) ∧ p < 256 ^ 4) :
    BigMSF.new (bigMagic ++ leBytes 4 psz ++ leBytes 4 fpm ++ leBytes 4 pu
        ++ leBytes 4 D ++ leBytes 4 rsv ++ ((lll.map (leBytes 4)).flatten ++ pad))
      = .ok ⟨⟨psz, pu⟩, .headerOnly D
          ⟨psz, lll, Header.pages_needed_to_store ⟨psz, pu⟩ D * 4⟩⟩ := by
  have hps0 : 0 < psz := by omega
  unfold BigMSF.new
  simp only [List.append_assoc]
  rw [take_field_of bigMagic _ (by rfl)]
  simp only []
  rw [parse_le_leBytes _ (by omega : psz < 256 ^ 4)]
  simp only []
  rw [parse_le_leBytes _ hfpm]
  simp only []
  rw [parse_le_leBytes _ hpu]
  simp only []
  rw [parse_le_leBytes _ hD]
  simp only []
  rw [parse_le_leBytes _ hrsv]
  simp only []
  rw [if_neg (show ¬ bigMagic ≠ bigMagic by simp)]
  rw [if_neg (show ¬ (¬ is_power_of_two psz = true ∨ psz < 0x100 ∨ 128 * 0x10000 < psz) by
    simp only [hpsz, not_true, false_or, not_or, not_lt]
    omega)]
  rw [read_page_list_enc ⟨psz, pu⟩ 4 (Header.pages_needed_to_store ⟨psz, pu⟩ D * 4) lll pad
    hps0 hlll hv]

theorem find_loop_enc (hdr : Header) (ms : List Nat) (pl : PageList)
    (hv : ∀ p ∈ ms, ¬(p = 0 ∨ hdr.maximum_valid_page_number < p) ∧ p < 256 ^ 4) :
    find_stream_table_loop hdr ((ms.map (leBytes 4)).flatten) pl = .ok (pushAll pl ms) := by
  induction ms generalizing pl with
  | nil => simp [find_stream_table_loop, pushAll]
  | cons p ms ih =>
    obtain ⟨h1, h2⟩ := hv p (by simp)
    have htail : ∀ q ∈ ms, ¬(q = 0 ∨ hdr.maximum_valid_page_number < q) ∧ q < 256 ^ 4 :=
      fun q hq => hv q (by simp [hq])
    show find_stream_table_loop hdr
      (p % 256 :: (p / 256 % 256) :: (p / 256 / 256 % 256) :: (p / 256 / 256 / 256 % 256)
        :: ((ms.map (leBytes 4)).flatten)) pl = .ok (pushAll pl (p :: ms))
    unfold find_stream_table_loop
    have hval : p % 256 + 256 * (p / 256 % 256) + 65536 * (p / 256 / 256 % 256)
        + 16777216 * (p / 256 / 256 / 256 % 256) = p := by omega
    rw [hval]
    simp only [Header.validate_page_number, if_neg h1]
    exact ih (pl.push p) htail

theorem truncate_exact {psz D : Nat} (ps : List Nat) (hps : 0 < psz)
    (hlen : ps.length = Header.pages_needed_to_store ⟨psz, 0⟩ D) :
    PageList.truncate ⟨psz, ps, ps.length * psz⟩ D = ⟨psz, ps, D⟩ := by
  have hge : D ≤ ps.length * psz := by
    rw [hlen]
    exact ceil_mul_ge hps D
  have hmin : min (ps.length * psz) D = D := min_eq_right hge
  have htake : ps.take ((D + psz - 1) / psz) = ps := by
    have harg : D + psz - 1 = D + (psz - 1) := by omega
    rw [harg]
    have : (D + (psz - 1)) / psz = ps.length := hlen.symm
    rw [this, List.take_length]
  simp [PageList.truncate, hmin, htake]

theorem big_find_spec (src : Src) (psz pu D : Nat) (locloc : PageList) (dirPages : List Nat)
    (hps : 0 < psz)
    (hdp : dirPages.length = Header.pages_needed_to_store ⟨psz, pu⟩ D)
    (hview : src locloc.source_slices = .ok ((dirPages.map (leBytes 4)).flatten))
    (hlenv : 4 * dirPages.length = locloc.len)
    (hv : ∀ p ∈ dirPages, ¬(p = 0 ∨ pu < p) ∧ p < 256 ^ 4) :
    BigMSF.find_stream_table src ⟨⟨psz, pu⟩, .headerOnly D locloc⟩
      = (.ok (), ⟨⟨psz, pu⟩, .tableFound ⟨psz, dirPages, D⟩⟩) := by
  rw [find_eq_headerOnly src rfl]
  have hview2 : view src locloc = .ok ((dirPages.map (leBytes 4)).flatten) := by
    unfold view
    rw [hview]
    simp only []
    rw [if_pos (by rw [leBytes_flatten_length]; exact hlenv)]
  rw [hview2]
  simp only []
  rw [find_loop_enc ⟨psz, pu⟩ dirPages _ hv]
  simp only []
  have hpa : pushAll (PageList.new psz) dirPages = ⟨psz, dirPages, dirPages.length * psz⟩ := by
    have := pushAll_spec psz [] dirPages
    simpa [PageList.new] using this
  rw [hpa, truncate_exact dirPages hps hdp]

/-- Claim C3: for a Big MSF with directory size `D` and page size `P`
(`dir_pages = pages_needed_to_store D`), construction reads exactly
`pages_needed_to_store(dir_pages × 4)` 32-bit page numbers from the header
(validating each) and truncates that PageList to `dir_pages × 4` bytes, storing
`HeaderOnly`; the subsequent `HeaderOnly → TableFound` transition parses the
viewed bytes as 32-bit page numbers until exhausted — `dir_pages` of them —
validating each, and truncates the directory PageList to `D` bytes. -/
theorem C3_big_construction (src : Src) (psz fpm pu D rsv : Nat)
    (lll dirPages : List Nat) (pad : Bytes)
    (hpsz : is_power_of_two psz = true) (hlo : 0x100 ≤ psz) (hhi : psz ≤ 128 * 0x10000)
    (hfpm : fpm < 256 ^ 4) (hpu : pu < 256 ^ 4) (hD : D < 256 ^ 4) (hrsv : rsv < 256 ^ 4)
    (hlll : lll.length = Header.pages_needed_to_store ⟨psz, pu⟩
        (Header.pages_needed_to_store ⟨psz, pu⟩ D * 4))
    (hvl : ∀ p ∈ lll, ¬(p = 0 ∨ pu < p) ∧ p < 256 ^ 4)
    (hdp : dirPages.length = Header.pages_needed_to_store ⟨psz, pu⟩ D)
    (hview : src (PageList.source_slices
        ⟨psz, lll, Header.pages_needed_to_store ⟨psz, pu⟩ D * 4⟩)
      = .ok ((dirPages.map (leBytes 4)).flatten))
    (hlenv : 4 * dirPages.length
      = Header.pages_needed_to_store ⟨psz, pu⟩ D * 4)
    (hvd : ∀ p ∈ dirPages, ¬(p = 0 ∨ pu < p) ∧ p < 256 ^ 4) :
    BigMSF.new (bigMagic ++ leBytes 4 psz ++ leBytes 4 fpm ++ leBytes 4 pu
        ++ leBytes 4 D ++ leBytes 4 rsv ++ ((lll.map (leBytes 4)).flatten ++ pad))
      = .ok ⟨⟨psz, pu⟩, .headerOnly D
          ⟨psz, lll, Header.pages_needed_to_store ⟨psz, pu⟩ D * 4⟩⟩
    ∧ BigMSF.find_stream_table src
        ⟨⟨psz, pu⟩, .headerOnly D ⟨psz, lll, Header.pages_needed_to_store ⟨psz, pu⟩ D * 4⟩⟩
      = (.ok (), ⟨⟨psz, pu⟩, .tableFound ⟨psz, dirPages, D⟩⟩) :=
  ⟨big_new_spec psz fpm pu D rsv lll pad hpsz hlo hhi hfpm hpu hD hrsv hlll hvl,
   big_find_spec src psz pu D _ dirPages (by omega) hdp hview hlenv hvd⟩

set_option maxRecDepth 8000 in
/-- Witness for C3: a concrete Big header (page size 256, directory size 12 on
page 2, page-list-of-page-list `[1]`) constructs and resolves as specified. -/
theorem C3_big_construction_witness :
    BigMSF.new (bigMagic ++ leBytes 4 256 ++ leBytes 4 0 ++ leBytes 4 15
        ++ leBytes 4 12 ++ leBytes 4 0 ++ (([1].map (leBytes 4)).flatten ++ []))
      = .ok ⟨⟨256, 15⟩, .headerOnly 12
          ⟨256, [1], Header.pages_needed_to_store ⟨256, 15⟩ 12 * 4⟩⟩
    ∧ BigMSF.find_stream_table (readFile (zeros 256 ++ leBytes 4 2))
        ⟨⟨256, 15⟩, .headerOnly 12
          ⟨256, [1], Header.pages_needed_to_store ⟨256, 15⟩ 12 * 4⟩⟩
      = (.ok (), ⟨⟨256, 15⟩, .tableFound ⟨256, [2], 12⟩⟩) :=
  C3_big_construction (readFile (zeros 256 ++ leBytes 4 2)) 256 0 15 12 0 [1] [2] []
    (by decide) (by decide) (by decide) (by decide) (by decide) (by decide) (by decide)
    (by decide) (by decide) (by decide) (by decide) (by decide) (by decide)

/-! ### Round trip (C1): the directory walk over a canonically encoded
directory. -/

theorem parse_count_enc (big : Bool) (count : Nat) (rest : Bytes)
    (h : count < (if big then 256 ^ 4 else 256 ^ 2)) :
    parse_stream_count big
        ((if big then leBytes 4 count else leBytes 2 count ++ leBytes 2 0) ++ rest)
      = .ok (count, rest) := by
  cases big with
  | true =>
    simp only [if_true] at h ⊢
    unfold parse_stream_count
    rw [if_pos rfl]
    exact parse_le_leBytes rest h
  | false =>
    simp only [Bool.false_eq_true, if_false] at h ⊢
    unfold parse_stream_count
    rw [if_neg (by simp)]
    simp only [List.append_assoc]
    rw [parse_le_leBytes _ h]
    simp only []
    rw [parse_le_leBytes _ (by norm_num : (0 : Nat) < 256 ^ 2)]

theorem read_stream_size_enc (big : Bool) (d : Option StreamEntry) (rest : Bytes)
    (h : descSize d < 256 ^ 4) :
    read_stream_size big (sizeEntryBytes big d ++ rest) = .ok (descSize d, rest) := by
  cases big with
  | true =>
    unfold sizeEntryBytes
    simp only [if_true, List.append_nil]
    unfold read_stream_size
    rw [parse_le_leBytes rest h]
    rfl
  | false =>
    unfold sizeEntryBytes
    simp only [Bool.false_eq_true, if_false, List.append_assoc]
    unfold read_stream_size
    rw [parse_le_leBytes _ h]
    simp only []
    rw [parse_le_leBytes _ (by norm_num : (0 : Nat) < 256 ^ 4)]
    rfl

theorem sizeEntryBytes_length (big : Bool) (d : Option StreamEntry) :
    (sizeEntryBytes big d).length = if big then 4 else 8 := by
  cases big <;> simp [sizeEntryBytes, leBytes_length]

theorem sizes_flatten_length (big : Bool) (ds : List (Option StreamEntry)) :
    ((ds.map (sizeEntryBytes big)).flatten).length = (if big then 4 else 8) * ds.length := by
  induction ds with
  | nil => simp
  | cons d rest ih =>
    simp only [List.map_cons, List.flatten_cons, List.length_append, ih,
      sizeEntryBytes_length, List.length_cons]
    ring

theorem skipCount_cons (hdr : Header) (d : Option StreamEntry)
    (ds : List (Option StreamEntry)) :
    skipCount hdr (d :: ds)
      = (match d with
          | none => 0
          | some e => hdr.pages_needed_to_store e.content.length) + skipCount hdr ds := by
  simp [skipCount]

theorem skip_sizes_enc (hdr : Header) (big : Bool) :
    ∀ (ds : List (Option StreamEntry)) (tail : Bytes) (acc : Nat),
      (∀ e, some e ∈ ds → e.content.length < 0xFFFFFFFF) →
      skip_stream_sizes hdr (!big) ds.length ((ds.map (sizeEntryBytes big)).flatten ++ tail) acc
        = .ok (acc + skipCount hdr ds, tail) := by
  intro ds
  induction ds with
  | nil =>
    intro tail acc _
    simp [skip_stream_sizes, skipCount]
  | cons d rest ih =>
    intro tail acc hsz
    have hdsz : descSize d < 256 ^ 4 := by
      cases d with
      | none => norm_num [descSize]
      | some e =>
        have := hsz e (by simp)
        simp only [descSize]
        omega
    have hread : read_stream_size big
          ((sizeEntryBytes big d) ++ ((rest.map (sizeEntryBytes big)).flatten ++ tail))
        = .ok (descSize d, (rest.map (sizeEntryBytes big)).flatten ++ tail) :=
      read_stream_size_enc big d _ hdsz
    have hbuf : ((d :: rest).map (sizeEntryBytes big)).flatten ++ tail
        = (sizeEntryBytes big d) ++ ((rest.map (sizeEntryBytes big)).flatten ++ tail) := by
      simp [List.append_assoc]
    rw [List.length_cons, hbuf,
      skip_step hdr (!big) rest.length acc (by simpa [Bool.not_not] using hread)]
    rw [skipCount_cons]
    cases d with
    | none =>
      rw [if_pos (by simp [descSize])]
      have := ih tail acc (fun e he => hsz e (by simp [he]))
      simpa [descSize] using this
    | some e =>
      have hne : descSize (some e) ≠ 0xFFFFFFFF := by
        have := hsz e (by simp)
        simp only [descSize]
        omega
      rw [if_neg hne]
      have := ih tail (acc + hdr.pages_needed_to_store (descSize (some e)))
        (fun e2 he2 => hsz e2 (by simp [he2]))
      simp only [descSize] at this ⊢
      rw [this]
      congr 2
      omega

theorem pages_flatten_length (big : Bool) (hdr : Header) (ds : List (Option StreamEntry))
    (hWF : ∀ d ∈ ds, entryWF hdr (if big then 4 else 2) d) :
    ((ds.map (pagesEntryBytes big)).flatten).length
      = (if big then 4 else 2) * skipCount hdr ds := by
  induction ds with
  | nil => simp [skipCount]
  | cons d rest ih =>
    have hd := hWF d (by simp)
    have htail : ∀ x ∈ rest, entryWF hdr (if big then 4 else 2) x :=
      fun x hx => hWF x (List.mem_cons_of_mem d hx)
    simp only [List.map_cons, List.flatten_cons, List.length_append, ih htail, skipCount_cons]
    cases d with
    | none => simp [pagesEntryBytes]
    | some e =>
      obtain ⟨-, hlen, -⟩ := hd
      simp only [pagesEntryBytes, leBytes_flatten_length, hlen]
      ring

theorem take_bytes_of {n : Nat} (a b : Bytes) (h : a.length = n) :
    take_bytes n (a ++ b) = .ok b := by
  subst h
  exact take_bytes_append a b

theorem header_matches_of (a b : Bytes) : header_matches (a ++ b) a = true := by
  simp [header_matches, List.take_left]

theorem header_matches_small_big (b : Bytes) :
    header_matches (smallMagic ++ b) bigMagic = false := by
  unfold header_matches
  have h1 : (smallMagic ++ b).take bigMagic.length
      = smallMagic.take bigMagic.length ++ b.take (bigMagic.length - smallMagic.length) :=
    List.take_append_eq_append_take
  have h2 : (smallMagic ++ b).take bigMagic.length ≠ bigMagic := by
    rw [h1]
    rw [show bigMagic.length - smallMagic.length = 0 from rfl]
    simp only [List.take_zero, List.append_nil]
    decide
  simp [h2]

theorem getElem_decomp {α : Type} {l : List α} {i : Nat} {d : α} (h : l[i]? = some d) :
    ∃ A B, l = A ++ d :: B ∧ A.length = i := by
  have hi : i < l.length := by
    by_contra hge
    rw [List.getElem?_eq_none (by omega)] at h
    exact Option.noConfusion h
  refine ⟨l.take i, l.drop (i + 1), ?_, by rw [List.length_take]; omega⟩
  have hd : l[i] = d := by
    rw [List.getElem?_eq_getElem hi] at h
    exact Option.some.inj h
  conv_lhs => rw [← List.take_append_drop i l]
  rw [List.drop_eq_getElem_cons hi, hd]

theorem walk_enc (hdr : Header) (big : Bool) (A B : List (Option StreamEntry))
    (e : StreamEntry) (hpsz : 0 < hdr.page_size)
    (hcount : (A ++ some e :: B).length < (if big then 256 ^ 4 else 256 ^ 2))
    (hWF : ∀ d ∈ A ++ some e :: B, entryWF hdr (if big then 4 else 2) d) :
    look_up_stream_in hdr big (encodeDir big (A ++ some e :: B)) A.length
      = .ok ⟨hdr.page_size, e.pages, e.content.length⟩ := by
  have he := hWF (some e) (by simp)
  simp only [entryWF] at he
  obtain ⟨hesz, helen, hev⟩ := he
  have hshape : encodeDir big (A ++ some e :: B)
      = (if big then leBytes 4 (A ++ some e :: B).length
          else leBytes 2 (A ++ some e :: B).length ++ leBytes 2 0)
        ++ ((A.map (sizeEntryBytes big)).flatten
          ++ (sizeEntryBytes big (some e)
            ++ ((B.map (sizeEntryBytes big)).flatten
              ++ ((A.map (pagesEntryBytes big)).flatten
                ++ (pagesEntryBytes big (some e)
                  ++ (B.map (pagesEntryBytes big)).flatten))))) := by
    simp only [encodeDir, List.map_append, List.map_cons, List.flatten_append,
      List.flatten_cons, List.append_assoc]
  rw [hshape]
  unfold look_up_stream_in
  rw [parse_count_enc big (A ++ some e :: B).length _ hcount]
  simp only []
  unfold look_up_with_count
  rw [if_neg (by simp only [List.length_append, List.length_cons]; omega)]
  rw [skip_sizes_enc hdr big A
    (sizeEntryBytes big (some e)
      ++ ((B.map (sizeEntryBytes big)).flatten
        ++ ((A.map (pagesEntryBytes big)).flatten
          ++ (pagesEntryBytes big (some e)
            ++ (B.map (pagesEntryBytes big)).flatten)))) 0
    (fun e' he' => (by
      have h := hWF (some e') (by simp [he'])
      simp only [entryWF] at h
      exact h.1))]
  simp only []
  rw [read_stream_size_enc big (some e)
    ((B.map (sizeEntryBytes big)).flatten
      ++ ((A.map (pagesEntryBytes big)).flatten
        ++ (pagesEntryBytes big (some e)
          ++ (B.map (pagesEntryBytes big)).flatten)))
    (by simp only [descSize]; omega)]
  simp only []
  rw [if_neg (by simp only [descSize]; omega)]
  unfold look_up_tail
  rw [show (A ++ some e :: B).length - A.length - 1 = B.length by
    simp only [List.length_append, List.length_cons]; omega]
  rw [take_bytes_of ((B.map (sizeEntryBytes big)).flatten)
    ((A.map (pagesEntryBytes big)).flatten
      ++ (pagesEntryBytes big (some e)
        ++ (B.map (pagesEntryBytes big)).flatten))
    (by rw [sizes_flatten_length]; ring)]
  simp only []
  rw [take_bytes_of ((A.map (pagesEntryBytes big)).flatten)
    (pagesEntryBytes big (some e) ++ (B.map (pagesEntryBytes big)).flatten)
    (by rw [pages_flatten_length big hdr A (fun d hd => hWF d (by simp [hd]))]; ring)]
  simp only []
  rw [show pagesEntryBytes big (some e)
      = ((e.pages.map (leBytes (if big then 4 else 2))).flatten) from rfl]
  rw [read_page_list_enc hdr (if big then 4 else 2) (descSize (some e)) e.pages
    ((B.map (pagesEntryBytes big)).flatten) hpsz
    (by simp only [descSize]; exact helen) hev]
  simp only [descSize]

theorem finish_tableFound {src : Src} {m : MsfState} {loc : PageList} {d : Bytes}
    (hst : m.stream_table = .tableFound loc)
    (hview : src loc.source_slices = .ok d) (hlen : d.length = loc.len) :
    finish_available src m = (.ok (), { m with stream_table := .available d }) := by
  have hv : view src loc = .ok d := by
    unfold view
    rw [hview]
    simp only []
    rw [if_pos hlen]
  unfold finish_available
  rw [adv_eq_tableFound src hst, hv]
  simp only []
  rw [assert_available_of
    (show ({ m with stream_table := .available d } : MsfState).stream_table = .available d
      from rfl)]

theorem small_new_spec (psz sp pu D rsv : Nat) (dirPages : List Nat) (pad : Bytes)
    (hpsz : is_power_of_two psz = true) (hlo : 0x100 ≤ psz) (hhi : psz ≤ 128 * 0x10000)
    (hsp : sp < 256 ^ 2) (hpu : pu < 256 ^ 2) (hD : D < 256 ^ 4) (hrsv : rsv < 256 ^ 4)
    (hdp : dirPages.length = Header.pages_needed_to_store ⟨psz, pu⟩ D)
    (hv : ∀ p ∈ dirPages, ¬(p = 0 ∨ pu < p) ∧ p < 256 ^ 2) :
    SmallMSF.new (smallMagic ++ leBytes 4 psz ++ leBytes 2 sp ++ leBytes 2 pu
        ++ leBytes 4 D ++ leBytes 4 rsv ++ ((dirPages.map (leBytes 2)).flatten ++ pad))
      = .ok ⟨⟨psz, pu⟩, .tableFound ⟨psz, dirPages, D⟩⟩ := by
  have hps0 : 0 < psz := by omega
  unfold SmallMSF.new
  simp only [List.append_assoc]
  rw [take_field_of smallMagic _ (by rfl)]
  simp only []
  rw [parse_le_leBytes _ (by omega : psz < 256 ^ 4)]
  simp only []
  rw [parse_le_leBytes _ hsp]
  simp only []
  rw [parse_le_leBytes _ hpu]
  simp only []
  rw [parse_le_leBytes _ hD]
  simp only []
  rw [parse_le_leBytes _ hrsv]
  simp only []
  rw [if_neg (show ¬ smallMagic ≠ smallMagic by simp)]
  rw [if_neg (show ¬ (¬ is_power_of_two psz = true ∨ psz < 0x100 ∨ 128 * 0x10000 < psz) by
    simp only [hpsz, not_true, false_or, not_or, not_lt]
    omega)]
  rw [read_page_list_enc ⟨psz, pu⟩ 2 D dirPages pad hps0 hdp hv]

theorem big_round_trip (src : Src) (psz fpm pu D rsv : Nat)
    (lll dirPages : List Nat) (pad : Bytes) (descs : List (Option StreamEntry))
    (hpsz : is_power_of_two psz = true) (hlo : 0x100 ≤ psz) (hhi : psz ≤ 128 * 0x10000)
    (hfpm : fpm < 256 ^ 4) (hpu : pu < 256 ^ 4) (hD : D < 256 ^ 4) (hrsv : rsv < 256 ^ 4)
    (hlll : lll.length = Header.pages_needed_to_store ⟨psz, pu⟩
        (Header.pages_needed_to_store ⟨psz, pu⟩ D * 4))
    (hvl : ∀ p ∈ lll, ¬(p = 0 ∨ pu < p) ∧ p < 256 ^ 4)
    (hhdr : (bigMagic ++ leBytes 4 psz ++ leBytes 4 fpm ++ leBytes 4 pu
        ++ leBytes 4 D ++ leBytes 4 rsv
        ++ ((lll.map (leBytes 4)).flatten ++ pad)).length = 4096)
    (hview0 : src [(0, 4096)] = .ok (bigMagic ++ leBytes 4 psz ++ leBytes 4 fpm
        ++ leBytes 4 pu ++ leBytes 4 D ++ leBytes 4 rsv
        ++ ((lll.map (leBytes 4)).flatten ++ pad)))
    (hdp : dirPages.length = Header.pages_needed_to_store ⟨psz, pu⟩ D)
    (hvd : ∀ p ∈ dirPages, ¬(p = 0 ∨ pu < p) ∧ p < 256 ^ 4)
    (hview1 : src (PageList.source_slices
        ⟨psz, lll, Header.pages_needed_to_store ⟨psz, pu⟩ D * 4⟩)
      = .ok ((dirPages.map (leBytes 4)).flatten))
    (hview2 : src (PageList.source_slices ⟨psz, dirPages, D⟩)
      = .ok (encodeDir true descs))
    (hencD : (encodeDir true descs).length = D)
    (hcount : descs.length < 256 ^ 4)
    (hWF : ∀ d ∈ descs, entryWF ⟨psz, pu⟩ 4 d)
    (hview3 : ∀ e : StreamEntry, some e ∈ descs →
      src (PageList.source_slices ⟨psz, e.pages, e.content.length⟩) = .ok e.content) :
    open_msf src = .ok (.big ⟨⟨psz, pu⟩, .headerOnly D
        ⟨psz, lll, Header.pages_needed_to_store ⟨psz, pu⟩ D * 4⟩⟩)
    ∧ ∀ (i : Nat) (e : StreamEntry), descs[i]? = some (some e) →
      MsfReader.get src (.big ⟨⟨psz, pu⟩, .headerOnly D
          ⟨psz, lll, Header.pages_needed_to_store ⟨psz, pu⟩ D * 4⟩⟩) i none
        = (.ok e.content, .big ⟨⟨psz, pu⟩, .available (encodeDir true descs)⟩) := by
  have hps0 : 0 < psz := by omega
  have hslices : PageList.source_slices ((PageList.new 4096).push 0) = [(0, 4096)] := by
    simp [PageList.source_slices, PageList.new, PageList.push, slicesFrom]
  have hview_hdr : view src ((PageList.new 4096).push 0)
      = .ok (bigMagic ++ leBytes 4 psz ++ leBytes 4 fpm ++ leBytes 4 pu
        ++ leBytes 4 D ++ leBytes 4 rsv ++ ((lll.map (leBytes 4)).flatten ++ pad)) := by
    unfold view
    rw [hslices, hview0]
    simp only []
    rw [if_pos (by rw [hhdr]; rfl)]
  have hmatch : header_matches (bigMagic ++ leBytes 4 psz ++ leBytes 4 fpm ++ leBytes 4 pu
      ++ leBytes 4 D ++ leBytes 4 rsv ++ ((lll.map (leBytes 4)).flatten ++ pad)) bigMagic
      = true := by
    simp only [List.append_assoc]
    exact header_matches_of bigMagic _
  have hnew := big_new_spec psz fpm pu D rsv lll pad hpsz hlo hhi hfpm hpu hD hrsv hlll hvl
  have hopen : open_msf src = .ok (.big ⟨⟨psz, pu⟩, .headerOnly D
      ⟨psz, lll, Header.pages_needed_to_store ⟨psz, pu⟩ D * 4⟩⟩) := by
    unfold open_msf
    rw [hview_hdr]
    simp only []
    rw [if_pos hmatch, hnew]
  refine ⟨hopen, ?_⟩
  intro i e hie
  obtain ⟨A, B, hAB, hAlen⟩ := getElem_decomp hie
  subst hAlen
  have hfind : BigMSF.find_stream_table src
      ⟨⟨psz, pu⟩, .headerOnly D ⟨psz, lll, Header.pages_needed_to_store ⟨psz, pu⟩ D * 4⟩⟩
      = (.ok (), ⟨⟨psz, pu⟩, .tableFound ⟨psz, dirPages, D⟩⟩) :=
    big_find_spec src psz pu D _ dirPages hps0 hdp hview1
      (by simp only [PageList.len]; rw [hdp]; ring) hvd
  have hfin : finish_available src ⟨⟨psz, pu⟩, .tableFound ⟨psz, dirPages, D⟩⟩
      = (.ok (), ⟨⟨psz, pu⟩, .available (encodeDir true descs)⟩) :=
    finish_tableFound rfl hview2 (by simp only [PageList.len]; exact hencD)
  have hmsta : BigMSF.make_stream_table_available src
      ⟨⟨psz, pu⟩, .headerOnly D ⟨psz, lll, Header.pages_needed_to_store ⟨psz, pu⟩ D * 4⟩⟩
      = (.ok (), ⟨⟨psz, pu⟩, .available (encodeDir true descs)⟩) := by
    rw [big_msta_eq_headerOnly src rfl, hfind]
    simp only []
    exact hfin
  have hwalk : look_up_stream_in ⟨psz, pu⟩ true (encodeDir true descs) A.length
      = .ok ⟨psz, e.pages, e.content.length⟩ := by
    rw [hAB]
    exact walk_enc ⟨psz, pu⟩ true A B e hps0 (by rw [← hAB]; simpa using hcount)
      (by rw [← hAB]; simpa using hWF)
  have hlus : msf_look_up_stream src true
      ⟨⟨psz, pu⟩, .headerOnly D ⟨psz, lll, Header.pages_needed_to_store ⟨psz, pu⟩ D * 4⟩⟩
      A.length
      = (.ok ⟨psz, e.pages, e.content.length⟩,
         ⟨⟨psz, pu⟩, .available (encodeDir true descs)⟩) := by
    unfold msf_look_up_stream
    rw [if_pos rfl, hmsta]
    simp only []
    exact congrArg (fun r => (r, _)) hwalk
  have hviewE : view src (apply_limit ⟨psz, e.pages, e.content.length⟩ none)
      = .ok e.content := by
    show view src ⟨psz, e.pages, e.content.length⟩ = .ok e.content
    unfold view
    rw [hview3 e (by rw [hAB]; simp)]
    simp only []
    rw [if_pos (show e.content.length
        = PageList.len ⟨psz, e.pages, e.content.length⟩ from rfl)]
  have hget : msf_get src true
      ⟨⟨psz, pu⟩, .headerOnly D ⟨psz, lll, Header.pages_needed_to_store ⟨psz, pu⟩ D * 4⟩⟩
      A.length none
      = (.ok e.content, ⟨⟨psz, pu⟩, .available (encodeDir true descs)⟩) := by
    unfold msf_get
    rw [hlus]
    simp only []
    rw [hviewE]
  show (fun r => (r.1, MsfReader.big r.2)) (BigMSF.get src _ A.length none) = _
  unfold BigMSF.get
  rw [hget]

theorem small_round_trip (src : Src) (psz sp pu D rsv : Nat)
    (dirPages : List Nat) (pad : Bytes) (descs : List (Option StreamEntry))
    (hpsz : is_power_of_two psz = true) (hlo : 0x100 ≤ psz) (hhi : psz ≤ 128 * 0x10000)
    (hsp : sp < 256 ^ 2) (hpu : pu < 256 ^ 2) (hD : D < 256 ^ 4) (hrsv : rsv < 256 ^ 4)
    (hdp : dirPages.length = Header.pages_needed_to_store ⟨psz, pu⟩ D)
    (hvd : ∀ p ∈ dirPages, ¬(p = 0 ∨ pu < p) ∧ p < 256 ^ 2)
    (hhdr : (smallMagic ++ leBytes 4 psz ++ leBytes 2 sp ++ leBytes 2 pu
        ++ leBytes 4 D ++ leBytes 4 rsv
        ++ ((dirPages.map (leBytes 2)).flatten ++ pad)).length = 4096)
    (hview0 : src [(0, 4096)] = .ok (smallMagic ++ leBytes 4 psz ++ leBytes 2 sp
        ++ leBytes 2 pu ++ leBytes 4 D ++ leBytes 4 rsv
        ++ ((dirPages.map (leBytes 2)).flatten ++ pad)))
    (hview2 : src (PageList.source_slices ⟨psz, dirPages, D⟩)
      = .ok (encodeDir false descs))
    (hencD : (encodeDir false descs).length = D)
    (hcount : descs.length < 256 ^ 2)
    (hWF : ∀ d ∈ descs, entryWF ⟨psz, pu⟩ 2 d)
    (hview3 : ∀ e : StreamEntry, some e ∈ descs →
      src (PageList.source_slices ⟨psz, e.pages, e.content.length⟩) = .ok e.content) :
    open_msf src = .ok (.small ⟨⟨psz, pu⟩, .tableFound ⟨psz, dirPages, D⟩⟩)
    ∧ ∀ (i : Nat) (e : StreamEntry), descs[i]? = some (some e) →
      MsfReader.get src (.small ⟨⟨psz, pu⟩, .tableFound ⟨psz, dirPages, D⟩⟩) i none
        = (.ok e.content, .small ⟨⟨psz, pu⟩, .available (encodeDir false descs)⟩) := by
  have hps0 : 0 < psz := by omega
  have hslices : PageList.source_slices ((PageList.new 4096).push 0) = [(0, 4096)] := by
    simp [PageList.source_slices, PageList.new, PageList.push, slicesFrom]
  have hview_hdr : view src ((PageList.new 4096).push 0)
      = .ok (smallMagic ++ leBytes 4 psz ++ leBytes 2 sp ++ leBytes 2 pu
        ++ leBytes 4 D ++ leBytes 4 rsv ++ ((dirPages.map (leBytes 2)).flatten ++ pad)) := by
    unfold view
    rw [hslices, hview0]
    simp only []
    rw [if_pos (by rw [hhdr]; rfl)]
  have hnobig : header_matches (smallMagic ++ leBytes 4 psz ++ leBytes 2 sp ++ leBytes 2 pu
      ++ leBytes 4 D ++ leBytes 4 rsv ++ ((dirPages.map (leBytes 2)).flatten ++ pad)) bigMagic
      = false := by
    simp only [List.append_assoc]
    exact header_matches_small_big _
  have hmatch : header_matches (smallMagic ++ leBytes 4 psz ++ leBytes 2 sp ++ leBytes 2 pu
      ++ leBytes 4 D ++ leBytes 4 rsv ++ ((dirPages.map (leBytes 2)).flatten ++ pad)) smallMagic
      = true := by
    simp only [List.append_assoc]
    exact header_matches_of smallMagic _
  have hnew := small_new_spec psz sp pu D rsv dirPages pad hpsz hlo hhi hsp hpu hD hrsv hdp hvd
  have hopen : open_msf src = .ok (.small ⟨⟨psz, pu⟩, .tableFound ⟨psz, dirPages, D⟩⟩) := by
    unfold open_msf
    rw [hview_hdr]
    simp only []
    rw [if_neg (by rw [hnobig]; simp), if_pos hmatch, hnew]
  refine ⟨hopen, ?_⟩
  intro i e hie
  obtain ⟨A, B, hAB, hAlen⟩ := getElem_decomp hie
  subst hAlen
  have hmsta : SmallMSF.make_stream_table_available src
      ⟨⟨psz, pu⟩, .tableFound ⟨psz, dirPages, D⟩⟩
      = (.ok (), ⟨⟨psz, pu⟩, .available (encodeDir false descs)⟩) := by
    unfold SmallMSF.make_stream_table_available
    exact finish_tableFound rfl hview2 (by simp only [PageList.len]; exact hencD)
  have hwalk : look_up_stream_in ⟨psz, pu⟩ false (encodeDir false descs) A.length
      = .ok ⟨psz, e.pages, e.content.length⟩ := by
    rw [hAB]
    exact walk_enc ⟨psz, pu⟩ false A B e hps0 (by rw [← hAB]; simpa using hcount)
      (by rw [← hAB]; simpa using hWF)
  have hlus : msf_look_up_stream src false
      ⟨⟨psz, pu⟩, .tableFound ⟨psz, dirPages, D⟩⟩ A.length
      = (.ok ⟨psz, e.pages, e.content.length⟩,
         ⟨⟨psz, pu⟩, .available (encodeDir false descs)⟩) := by
    unfold msf_look_up_stream
    rw [if_neg (by simp), hmsta]
    simp only []
    exact congrArg (fun r => (r, _)) hwalk
  have hviewE : view src (apply_limit ⟨psz, e.pages, e.content.length⟩ none)
      = .ok e.content := by
    show view src ⟨psz, e.pages, e.content.length⟩ = .ok e.content
    unfold view
    rw [hview3 e (by rw [hAB]; simp)]
    simp only []
    rw [if_pos (show e.content.length
        = PageList.len ⟨psz, e.pages, e.content.length⟩ from rfl)]
  have hget : msf_get src false
      ⟨⟨psz, pu⟩, .tableFound ⟨psz, dirPages, D⟩⟩ A.length none
      = (.ok e.content, ⟨⟨psz, pu⟩, .available (encodeDir false descs)⟩) := by
    unfold msf_get
    rw [hlus]
    simp only []
    rw [hviewE]
  show (fun r => (r.1, MsfReader.small r.2)) (SmallMSF.get src _ A.length none) = _
  unfold SmallMSF.get
  rw [hget]

/-- Claim C7: for every Header, `validate_page_number(n)` succeeds with `Ok(n)`
exactly when `1 ≤ n ≤ maximum_valid_page_number`, and otherwise fails with
`PageReferenceOutOfRange(n)`; in particular page 0 always fails. -/
theorem C7_validate_page_number (H : Header) (n : Nat) :
    (H.validate_page_number n = .ok n ↔ 1 ≤ n ∧ n ≤ H.maximum_valid_page_number)
    ∧ ((n = 0 ∨ H.maximum_valid_page_number < n) →
        H.validate_page_number n = .error (.pageReferenceOutOfRange n))
    ∧ H.validate_page_number 0 = .error (.pageReferenceOutOfRange 0) := by
  refine ⟨?_, ?_, ?_⟩
  · unfold Header.validate_page_number
    split
    next hcond =>
      constructor
      · intro hcontra
        simp at hcontra
      · intro hn
        omega
    next hcond =>
      constructor
      · intro _
        omega
      · intro _
        rfl
  · intro h
    simp [Header.validate_page_number, h]
  · simp [Header.validate_page_number]

/-- Witness for C7 at a concrete header: both failure modes and a success. -/
theorem C7_validate_page_number_witness :
    Header.validate_page_number ⟨4096, 15⟩ 16 = .error (.pageReferenceOutOfRange 16) :=
  (C7_validate_page_number ⟨4096, 15⟩ 16).2.1 (Or.inr (by decide))

/-- Claim C1: round trip.  For every well-formed MSF image — Big (first
conjunct) or Small (second conjunct) — presented by a transport `src` (valid
header fields, a directory stored as the canonical encoding `encodeDir` of a
stream list `descs`, and each present stream's pages holding its content),
`open_msf` succeeds, and `get(i, None)` on the returned reader yields exactly
the content of stream `i` for every present index `i`: the directory walk skips
`pages_needed_to_store(size)` page numbers for each preceding present stream
and zero for each absent one, reads `pages_needed_to_store(size_i)` page
numbers for stream `i`, and truncates the PageList to `size_i` bytes (the
returned view is exactly the `size_i` content bytes). -/
theorem C1_round_trip :
    (∀ (src : Src) (psz fpm pu D rsv : Nat) (lll dirPages : List Nat) (pad : Bytes)
      (descs : List (Option StreamEntry)),
      is_power_of_two psz = true → 0x100 ≤ psz → psz ≤ 128 * 0x10000 →
      fpm < 256 ^ 4 → pu < 256 ^ 4 → D < 256 ^ 4 → rsv < 256 ^ 4 →
      lll.length = Header.pages_needed_to_store ⟨psz, pu⟩
        (Header.pages_needed_to_store ⟨psz, pu⟩ D * 4) →
      (∀ p ∈ lll, ¬(p = 0 ∨ pu < p) ∧ p < 256 ^ 4) →
      (bigMagic ++ leBytes 4 psz ++ leBytes 4 fpm ++ leBytes 4 pu
        ++ leBytes 4 D ++ leBytes 4 rsv
        ++ ((lll.map (leBytes 4)).flatten ++ pad)).length = 4096 →
      src [(0, 4096)] = .ok (bigMagic ++ leBytes 4 psz ++ leBytes 4 fpm
        ++ leBytes 4 pu ++ leBytes 4 D ++ leBytes 4 rsv
        ++ ((lll.map (leBytes 4)).flatten ++ pad)) →
      dirPages.length = Header.pages_needed_to_store ⟨psz, pu⟩ D →
      (∀ p ∈ dirPages, ¬(p = 0 ∨ pu < p) ∧ p < 256 ^ 4) →
      src (PageList.source_slices
          ⟨psz, lll, Header.pages_needed_to_store ⟨psz, pu⟩ D * 4⟩)
        = .ok ((dirPages.map (leBytes 4)).flatten) →
      src (PageList.source_slices ⟨psz, dirPages, D⟩) = .ok (encodeDir true descs) →
      (encodeDir true descs).length = D →
      descs.length < 256 ^ 4 →
      (∀ d ∈ descs, entryWF ⟨psz, pu⟩ 4 d) →
      (∀ e : StreamEntry, some e ∈ descs →
        src (PageList.source_slices ⟨psz, e.pages, e.content.length⟩) = .ok e.content) →
      open_msf src = .ok (.big ⟨⟨psz, pu⟩, .headerOnly D
          ⟨psz, lll, Header.pages_needed_to_store ⟨psz, pu⟩ D * 4⟩⟩)
      ∧ ∀ (i : Nat) (e : StreamEntry), descs[i]? = some (some e) →
        MsfReader.get src (.big ⟨⟨psz, pu⟩, .headerOnly D
            ⟨psz, lll, Header.pages_needed_to_store ⟨psz, pu⟩ D * 4⟩⟩) i none
          = (.ok e.content, .big ⟨⟨psz, pu⟩, .available (encodeDir true descs)⟩))
    ∧ (∀ (src : Src) (psz sp pu D rsv : Nat) (dirPages : List Nat) (pad : Bytes)
      (descs : List (Option StreamEntry)),
      is_power_of_two psz = true → 0x100 ≤ psz → psz ≤ 128 * 0x10000 →
      sp < 256 ^ 2 → pu < 256 ^ 2 → D < 256 ^ 4 → rsv < 256 ^ 4 →
      dirPages.length = Header.pages_needed_to_store ⟨psz, pu⟩ D →
      (∀ p ∈ dirPages, ¬(p = 0 ∨ pu < p) ∧ p < 256 ^ 2) →
      (smallMagic ++ leBytes 4 psz ++ leBytes 2 sp ++ leBytes 2 pu
        ++ leBytes 4 D ++ leBytes 4 rsv
        ++ ((dirPages.map (leBytes 2)).flatten ++ pad)).length = 4096 →
      src [(0, 4096)] = .ok (smallMagic ++ leBytes 4 psz ++ leBytes 2 sp
        ++ leBytes 2 pu ++ leBytes 4 D ++ leBytes 4 rsv
        ++ ((dirPages.map (leBytes 2)).flatten ++ pad)) →
      src (PageList.source_slices ⟨psz, dirPages, D⟩) = .ok (encodeDir false descs) →
      (encodeDir false descs).length = D →
      descs.length < 256 ^ 2 →
      (∀ d ∈ descs, entryWF ⟨psz, pu⟩ 2 d) →
      (∀ e : StreamEntry, some e ∈ descs →
        src (PageList.source_slices ⟨psz, e.pages, e.content.length⟩) = .ok e.content) →
      open_msf src = .ok (.small ⟨⟨psz, pu⟩, .tableFound ⟨psz, dirPages, D⟩⟩)
      ∧ ∀ (i : Nat) (e : StreamEntry), descs[i]? = some (some e) →
        MsfReader.get src (.small ⟨⟨psz, pu⟩, .tableFound ⟨psz, dirPages, D⟩⟩) i none
          = (.ok e.content, .small ⟨⟨psz, pu⟩, .available (encodeDir false descs)⟩)) :=
  ⟨fun src psz fpm pu D rsv lll dirPages pad descs h1 h2 h3 h4 h5 h6 h7 h8 h9 h10 h11
      h12 h13 h14 h15 h16 h17 h18 h19 =>
    big_round_trip src psz fpm pu D rsv lll dirPages pad descs h1 h2 h3 h4 h5 h6 h7 h8 h9
      h10 h11 h12 h13 h14 h15 h16 h17 h18 h19,
   fun src psz sp pu D rsv dirPages pad descs h1 h2 h3 h4 h5 h6 h7 h8 h9 h10 h11
      h12 h13 h14 h15 h16 =>
    small_round_trip src psz sp pu D rsv dirPages pad descs h1 h2 h3 h4 h5 h6 h7 h8 h9
      h10 h11 h12 h13 h14 h15 h16⟩

/-- Witness for C1: the concrete Big and Small example transports round-trip
their single stream `hi` through `open_msf` and `get(0, None)`. -/
theorem C1_round_trip_witness :
    (open_msf exC1BigSrc = .ok (.big ⟨⟨256, 15⟩, .headerOnly 12
        ⟨256, [1], Header.pages_needed_to_store ⟨256, 15⟩ 12 * 4⟩⟩)
      ∧ MsfReader.get exC1BigSrc (.big ⟨⟨256, 15⟩, .headerOnly 12
          ⟨256, [1], Header.pages_needed_to_store ⟨256, 15⟩ 12 * 4⟩⟩) 0 none
        = (.ok [104, 105], .big ⟨⟨256, 15⟩, .available (encodeDir true exBigDescs)⟩))
    ∧ (open_msf exC1SmallSrc = .ok (.small ⟨⟨256, 15⟩, .tableFound ⟨256, [1], 14⟩⟩)
      ∧ MsfReader.get exC1SmallSrc (.small ⟨⟨256, 15⟩, .tableFound ⟨256, [1], 14⟩⟩) 0 none
        = (.ok [104, 105], .small ⟨⟨256, 15⟩, .available (encodeDir false exSmallDescs)⟩)) := by
  obtain ⟨hbig, hsmall⟩ := C1_round_trip
  have hB := hbig exC1BigSrc 256 0 15 12 0 [1] [2] (zeros 4040) exBigDescs
    (by decide) (by decide) (by decide) (by decide) (by decide) (by decide) (by decide)
    (by decide) (by decide)
    (by simp only [List.length_append, leBytes_length, zeros, List.length_replicate,
      List.map_cons, List.map_nil, List.flatten_cons, List.flatten_nil, List.append_nil,
      bigMagic, List.length_cons, List.length_nil])
    rfl (by decide) (by decide) rfl rfl (by decide) (by decide) (by decide)
    (by
      intro e he
      have he2 : e = ⟨[104, 105], [3]⟩ := by simpa [exBigDescs] using he
      subst he2
      rfl)
  have hS := hsmall exC1SmallSrc 256 0 15 14 0 [1] (zeros 4034) exSmallDescs
    (by decide) (by decide) (by decide) (by decide) (by decide) (by decide) (by decide)
    (by decide) (by decide)
    (by simp only [List.length_append, leBytes_length, zeros, List.length_replicate,
      List.map_cons, List.map_nil, List.flatten_cons, List.flatten_nil, List.append_nil,
      smallMagic, List.length_cons, List.length_nil])
    rfl rfl (by decide) (by decide) (by decide)
    (by
      intro e he
      have he2 : e = ⟨[104, 105], [2]⟩ := by simpa [exSmallDescs] using he
      subst he2
      rfl)
  exact ⟨⟨hB.1, hB.2 0 ⟨[104, 105], [3]⟩ (by decide)⟩,
         ⟨hS.1, hS.2 0 ⟨[104, 105], [2]⟩ (by decide)⟩⟩

end Msf
